import Mathlib

/-!
Verification development for the podsync per-feed update pipeline
(`src/pkg/ytdl/temp_file.go`, package `main`, plus `src/pkg/config/config.go`).

The Go code is shallowly embedded below: episodes and feed configuration
become Lean structures, the local key-value store becomes an ordered list of
episodes, collaborator behaviour (file storage, downloader, sponsor-segment
lookup, regular-expression matching, ffmpeg) is threaded through explicit
environments, and each pipeline stage (`updateFeed`, `matchFilters`,
`downloadEpisodes`, `cleanup`) becomes a pure Lean function mirroring the
source control flow.
-/

namespace Podsync

/-- Episode status, mirroring `model.EpisodeNew`, `model.EpisodeDownloaded`,
`model.EpisodeError`, `model.EpisodeCleaned`. -/
inductive EpisodeStatus where
  | new
  | downloaded
  | error
  | cleaned
deriving DecidableEq, Repr

/-- An episode record as stored in the local database (`model.Episode`):
identity, text fields, publish timestamp, source locator, on-disk size and
lifecycle status.  Timestamps and sizes are modelled as integers. -/
structure Episode where
  id : String
  title : String
  description : String
  pubDate : Int
  videoURL : String
  size : Int
  status : EpisodeStatus
deriving DecidableEq, Repr

/-- One episode of a freshly fetched remote listing (the `result.Episodes`
entries produced by the builder collaborator): identity plus the remote
metadata fields, with no local lifecycle state. -/
structure RemoteEpisode where
  id : String
  title : String
  description : String
  pubDate : Int
  videoURL : String
deriving DecidableEq, Repr

/-- The local store for one feed: the episodes in store (walk) order.
`db.WalkEpisodes` visits exactly this list in order. -/
abbrev Store := List Episode

/-- Modelled from the spec: `db.UpdateEpisode(feedID, id, mutate)` is a
read-modify-write of the episode with the given ID (the store collaborator
`pkg/db` is not under `src/`). -/
def updateEpisode (store : Store) (id : String) (f : Episode → Episode) : Store :=
  store.map (fun e => if e.id = id then f e else e)

/-- Modelled from the spec: `db.DeleteEpisode(feedID, id)` removes the
episode with the given ID from the store. -/
def deleteEpisode (store : Store) (id : String) : Store :=
  store.filter (fun e => e.id ≠ id)

/-- A remote episode inserted into the store for the first time: it
carries the remote metadata and starts life as `New` with no on-disk size. -/
def remoteToNew (r : RemoteEpisode) : Episode :=
  { id := r.id, title := r.title, description := r.description,
    pubDate := r.pubDate, videoURL := r.videoURL, size := 0,
    status := EpisodeStatus.new }

/-- Refreshing an already known episode from the remote listing: the remote
metadata fields are overwritten, the locally authoritative `status` and
`size` are kept. -/
def mergeRemote (e : Episode) (r : RemoteEpisode) : Episode :=
  { e with title := r.title, description := r.description,
           pubDate := r.pubDate, videoURL := r.videoURL }

/-- Modelled from the spec: one upsert step of `db.AddFeed` — "each remote
episode not previously known is inserted as `New`; each one already known is
merged/refreshed without altering its current status". -/
def upsertEpisode (store : Store) (r : RemoteEpisode) : Store :=
  if store.any (fun e => e.id = r.id) then
    store.map (fun e => if e.id = r.id then mergeRemote e r else e)
  else
    store ++ [remoteToNew r]

/-- Modelled from the spec: `db.AddFeed(feedID, result)` upserts every
episode of the remote listing, in listing order (the store collaborator
`pkg/db` is not under `src/`). -/
def addFeed (store : Store) (listing : List RemoteEpisode) : Store :=
  listing.foldl upsertEpisode store

/-- The reconciliation core of `updateFeed` (src/pkg/ytdl/temp_file.go,
lines 144–169): snapshot the IDs of episodes that are neither `Downloaded`
nor `Cleaned`, upsert the remote listing, drop from the snapshot every ID
present in the listing, and delete the episodes whose IDs remain. -/
def updateFeedStore (store : Store) (listing : List RemoteEpisode) : Store :=
  let episodeSet := (store.filter (fun e =>
    e.status ≠ EpisodeStatus.downloaded ∧ e.status ≠ EpisodeStatus.cleaned)).map (·.id)
  let merged := addFeed store listing
  let remaining := episodeSet.filter (fun id => ¬ listing.any (fun r => r.id = id))
  remaining.foldl deleteEpisode merged

/-- The per-feed regex filter configuration (`config.Filters`). -/
structure Filters where
  title : String
  notTitle : String
  description : String
  notDescription : String
deriving DecidableEq, Repr

/-- The abstract behaviour of Go's `regexp.MatchString pattern str`:
`none` models a compile error of the pattern, `some b` a successful match
attempt with result `b`.  The claims are about the gate logic around this
call, not about regular-expression semantics. -/
abbrev ReMatch := String → String → Option Bool

/-- `matchRegexpFilter` (src/pkg/ytdl/temp_file.go, lines 175–188): an empty
pattern passes; a pattern whose compilation fails is logged and passes; a
successful match attempt fails the gate exactly when `matched == negative`. -/
def matchRegexpFilter (m : ReMatch) (pattern str : String) (negative : Bool) : Bool :=
  if pattern ≠ "" then
    match m pattern str with
    | none => true
    | some matched => if matched = negative then false else true
  else
    true

/-- `matchFilters` (src/pkg/ytdl/temp_file.go, lines 190–207): the
conjunction of the four regex gates, in source order. -/
def matchFilters (m : ReMatch) (e : Episode) (filters : Filters) : Bool :=
  if ¬ matchRegexpFilter m filters.title e.title false then false
  else if ¬ matchRegexpFilter m filters.notTitle e.title true then false
  else if ¬ matchRegexpFilter m filters.description e.description false then false
  else if ¬ matchRegexpFilter m filters.notDescription e.description true then false
  else true

/-- The per-category sponsor-segment policy
(`config.SponsorBlockCategories`); each field is `"cut"` or `"keep"` after
configuration defaulting. -/
structure SponsorBlockCategories where
  sponsors : String
  intermissions : String
  endcards : String
  interactionReminders : String
  selfPromotions : String
  nonmusicSections : String
deriving DecidableEq, Repr

/-- One sponsor segment as decoded from the lookup response: a category
label and a `[segStart, segEnd)` time range.  The source reads
`segment.Segment[0]` and `segment.Segment[1]`; times are modelled as
rationals (the source stores them as floating-point numbers but never
computes with them — it only copies and compares them). -/
structure Seg where
  segStart : ℚ
  segEnd : ℚ
  category : String
deriving DecidableEq, Repr

/-- The chain of `if segment.Category == … && c.… == "keep" { continue }`
tests of the trimming loop (src/pkg/ytdl/temp_file.go, lines 383–400):
`true` exactly when the segment is skipped (left intact in the media). -/
def segmentKept (c : SponsorBlockCategories) (cat : String) : Bool :=
  (cat = "sponsor" && c.sponsors = "keep") ||
  (cat = "intro" && c.intermissions = "keep") ||
  (cat = "outro" && c.endcards = "keep") ||
  (cat = "interaction" && c.interactionReminders = "keep") ||
  (cat = "selfpromo" && c.selfPromotions = "keep") ||
  (cat = "music_offtopic" && c.nonmusicSections = "keep")

/-- A keep interval `(start, stop)`, where `stop = -1` denotes "to the end
of the media" (the `[2]float64` pairs of the `keeps` slice). -/
abbrev KeepInterval := ℚ × ℚ

/-- The keep-interval loop body (src/pkg/ytdl/temp_file.go, lines 381–404)
with the `nextStart` cursor made explicit: kept segments are skipped, every
other segment contributes `[cursor, segStart)` and advances the cursor to
`segEnd`; after the loop a final `[cursor, -1)` interval is appended. -/
def keepsFrom (c : SponsorBlockCategories) (cursor : ℚ) : List Seg → List KeepInterval
  | [] => [(cursor, -1)]
  | s :: rest =>
    if segmentKept c s.category then keepsFrom c cursor rest
    else (cursor, s.segStart) :: keepsFrom c s.segEnd rest

/-- The complete keep-interval computation: the loop starts with
`nextStart = 0.0`. -/
def computeKeeps (c : SponsorBlockCategories) (segs : List Seg) : List KeepInterval :=
  keepsFrom c 0 segs

/-- The value of `model.FormatAudio` that `feedConfig.Format` is compared
against. -/
def formatAudio : String := "audio"

/-- The per-feed cleanup policy (`config.Cleanup`). -/
structure Cleanup where
  keepLast : Int
deriving DecidableEq, Repr

/-- The slice of the per-feed configuration (`config.Feed`) consumed by the
pipeline stages under verification. -/
structure FeedConfig where
  id : String
  pageSize : Int
  format : String
  filters : Filters
  clean : Cleanup
  sponsorblockMode : String
  sponsorBlockCategories : SponsorBlockCategories
deriving Repr

/-- The output container extension chosen by the trim path
(src/pkg/ytdl/temp_file.go, lines 420–425): `mp4`, overridden to `mp3` for
audio-only feeds. -/
def outputExt (cfg : FeedConfig) : String :=
  if cfg.format = formatAudio then "mp3" else "mp4"

/-- The `v=` stream count of the concat stage (same lines): `1`, overridden
to `0` for audio-only feeds. -/
def videoStreams (cfg : FeedConfig) : Nat :=
  if cfg.format = formatAudio then 0 else 1

/-- The audio-trim stage emitted for keep interval `(start, stop)` at
position `idx` (src/pkg/ytdl/temp_file.go, lines 433–437), given `fmtF`,
the behaviour of Go's `fmt.Sprintf("%f", ·)`. -/
def audioTrimStage (fmtF : ℚ → String) (idx : Nat) (iv : KeepInterval) : String :=
  "[0:a]atrim=start=" ++ fmtF iv.1 ++
    (if iv.2 ≥ 0 then ":end=" ++ fmtF iv.2 else "") ++
    ",asetpts=PTS-STARTPTS[s" ++ toString idx ++ "a];"

/-- The video-trim stage emitted for keep interval `(start, stop)` at
position `idx` when the feed is not audio-only (lines 438–443). -/
def videoTrimStage (fmtF : ℚ → String) (idx : Nat) (iv : KeepInterval) : String :=
  "[0:v]trim=start=" ++ fmtF iv.1 ++
    (if iv.2 ≥ 0 then ":end=" ++ fmtF iv.2 else "") ++
    ",setpts=PTS-STARTPTS[s" ++ toString idx ++ "v];"

/-- The segment labels appended to `finalFilter` for position `idx`
(lines 444–446): `[s{idx}v]` (video feeds only) followed by `[s{idx}a]`. -/
def segmentLabels (cfg : FeedConfig) (idx : Nat) : String :=
  (if cfg.format ≠ formatAudio then "[s" ++ toString idx ++ "v]" else "") ++
  "[s" ++ toString idx ++ "a]"

/-- The trim-stage loop (src/pkg/ytdl/temp_file.go, lines 430–454), carrying
the running index and returning the pair of accumulated strings
`(filter, finalFilter)`. -/
def buildStages (fmtF : ℚ → String) (cfg : FeedConfig) :
    Nat → List KeepInterval → String × String
  | _, [] => ("", "")
  | idx, iv :: rest =>
    let stage :=
      audioTrimStage fmtF idx iv ++
      (if cfg.format ≠ formatAudio then videoTrimStage fmtF idx iv else "")
    let (f, fin) := buildStages fmtF cfg (idx + 1) rest
    (stage ++ f, segmentLabels cfg idx ++ fin)

/-- The complete filter-graph text handed to ffmpeg
(src/pkg/ytdl/temp_file.go, lines 428–459): the trim stages, the
concatenated segment labels, the concat stage, and the final output labels
(`[outv]` for video feeds, always `[outa]`). -/
def ffmpegFilter (fmtF : ℚ → String) (cfg : FeedConfig) (keeps : List KeepInterval) : String :=
  let (f, fin) := buildStages fmtF cfg 0 keeps
  f ++ fin ++ "concat=n=" ++ toString keeps.length ++ ":v=" ++
    toString (videoStreams cfg) ++ ":a=1" ++
    (if cfg.format ≠ formatAudio then "[outv]" else "") ++ "[outa]"

/-- Result of the `u.fs.Size(ctx, feedID, episodeName)` existence check:
the blob exists with a size, it does not exist (`os.IsNotExist`), or the
stat itself failed. -/
inductive SizeRes where
  | found (sz : Int)
  | notFound
  | statErr
deriving DecidableEq, Repr

/-- Result of `u.downloader.Download`: the distinguished
`ytdl.ErrTooManyRequests`, any other error, or success. -/
inductive DlRes where
  | rateLimited
  | dlError
  | ok
deriving DecidableEq, Repr

/-- The behaviour of every collaborator touched by `downloadEpisodes` and
`cleanup`, keyed by episode name or episode ID: regex matching, the derived
episode file name (`feed.EpisodeName`), blob existence, the sponsor-segment
lookup response (soft lookup failures already degraded to the empty list,
as the source does), whether the configured sponsorblock delay since
publish has elapsed, the downloader, the ffmpeg invocation, the two
`fs.Create` persist calls, and `fs.Delete`. -/
structure Env where
  reMatch : ReMatch
  epName : Episode → String
  fsSize : String → SizeRes
  segments : String → List Seg
  delayPassed : String → Bool
  download : String → DlRes
  ffmpegOk : String → Bool
  createRaw : String → Option Int
  createProcessed : String → Option Int
  deleteOk : String → Bool

/-- The outcome of processing one download candidate in the loop body of
`downloadEpisodes` (src/pkg/ytdl/temp_file.go, lines 256–515). -/
inductive StepOut where
  | onDisk (sz : Int)
  | statAbort
  | deferred
  | rateLimit
  | dlFailed
  | ffmpegAbort
  | copyAbort
  | done (sz : Int)
deriving DecidableEq, Repr

/-- Errors with which `downloadEpisodes` returns early, aborting the feed's
run. -/
inductive RunError where
  | statFail
  | copyFail
  | ffmpegFail
deriving DecidableEq, Repr

/-- One iteration of the download loop (src/pkg/ytdl/temp_file.go,
lines 256–515), in source order: the blob existence check, the
sponsor-segment fetch (only when the mode is not `off`), the `require` /
`requiredelay` deferrals (the `delay`-mode check at line 298 only logs and
defers nothing), the download with its rate-limit and error cases, and the
persist step — a plain copy when no segments were returned, otherwise the
ffmpeg trim invocation followed by the copy of the processed file.  Any
ffmpeg or copy failure returns an error from `downloadEpisodes`.

`stepFetch` is the part of the iteration from the downloader invocation
(line 342) onwards, given the segments fetched earlier. -/
def stepFetch (env : Env) (e : Episode) (segments : List Seg) : StepOut :=
  match env.download e.id with
  | DlRes.rateLimited => StepOut.rateLimit
  | DlRes.dlError => StepOut.dlFailed
  | DlRes.ok =>
    if segments = [] then
      match env.createRaw (env.epName e) with
      | none => StepOut.copyAbort
      | some sz => StepOut.done sz
    else
      if ¬ env.ffmpegOk e.id then StepOut.ffmpegAbort
      else
        match env.createProcessed (env.epName e) with
        | none => StepOut.copyAbort
        | some sz => StepOut.done sz

def stepEpisode (env : Env) (cfg : FeedConfig) (e : Episode) : StepOut :=
  match env.fsSize (env.epName e) with
  | SizeRes.found sz => StepOut.onDisk sz
  | SizeRes.statErr => StepOut.statAbort
  | SizeRes.notFound =>
    let segments := if cfg.sponsorblockMode ≠ "off" then env.segments e.id else []
    if cfg.sponsorblockMode = "require" ∧ segments = [] then
      StepOut.deferred
    else if cfg.sponsorblockMode = "requiredelay" ∧ segments = [] ∧
        ¬ env.delayPassed e.id then
      StepOut.deferred
    else
      stepFetch env e segments

/-- Mark an episode `Downloaded` and record its on-disk size (the
`db.UpdateEpisode` mutation at lines 268–271 and 506–509). -/
def markDownloaded (store : Store) (id : String) (sz : Int) : Store :=
  updateEpisode store id (fun e =>
    { e with size := sz, status := EpisodeStatus.downloaded })

/-- Mark an episode `Error` (the `db.UpdateEpisode` mutation at
lines 352–355). -/
def markError (store : Store) (id : String) : Store :=
  updateEpisode store id (fun e => { e with status := EpisodeStatus.error })

/-- The download loop over the candidate list: `continue` keeps folding,
`break` on rate limiting ends the loop without an error, and the fatal
cases return an error immediately.  Returns the final store and the
error with which `downloadEpisodes` returns (`none` means success). -/
def processLoop (env : Env) (cfg : FeedConfig) :
    Store → List Episode → Store × Option RunError
  | store, [] => (store, none)
  | store, e :: rest =>
    match stepEpisode env cfg e with
    | StepOut.onDisk sz => processLoop env cfg (markDownloaded store e.id sz) rest
    | StepOut.statAbort => (store, some RunError.statFail)
    | StepOut.deferred => processLoop env cfg store rest
    | StepOut.rateLimit => (store, none)
    | StepOut.dlFailed => processLoop env cfg (markError store e.id) rest
    | StepOut.ffmpegAbort => (store, some RunError.ffmpegFail)
    | StepOut.copyAbort => (store, some RunError.copyFail)
    | StepOut.done sz => processLoop env cfg (markDownloaded store e.id sz) rest

/-- The candidate-selection walk of `downloadEpisodes`
(src/pkg/ytdl/temp_file.go, lines 219–240), carrying the mutable `pageSize`
budget: episodes that are neither `New` nor `Error` are skipped, episodes
failing the filters are skipped, and otherwise the budget is decremented
first and the episode is appended only while the decremented budget is
still positive. -/
def buildDownloadList (m : ReMatch) (cfg : FeedConfig) :
    Int → Store → List Episode
  | _, [] => []
  | b, e :: rest =>
    if e.status ≠ EpisodeStatus.new ∧ e.status ≠ EpisodeStatus.error then
      buildDownloadList m cfg b rest
    else if ¬ matchFilters m e cfg.filters then
      buildDownloadList m cfg b rest
    else if b - 1 ≤ 0 then
      buildDownloadList m cfg (b - 1) rest
    else
      e :: buildDownloadList m cfg (b - 1) rest

/-- `downloadEpisodes` (src/pkg/ytdl/temp_file.go, lines 209–519): build
the candidate list from the store walk, then run the download loop over it
(the source's early return on an empty list returns the store unchanged,
which coincides with the loop on an empty list). -/
def downloadEpisodes (env : Env) (cfg : FeedConfig) (store : Store) :
    Store × Option RunError :=
  processLoop env cfg store (buildDownloadList env.reMatch cfg cfg.pageSize store)

/-- Insertion of an episode into a list sorted by publish timestamp
descending, modelling the comparator
`list[i].PubDate.After(list[j].PubDate)` of the `sort.Slice` call at
lines 594–596. -/
def insertByPubDateDesc (e : Episode) : List Episode → List Episode
  | [] => [e]
  | x :: xs =>
    if x.pubDate > e.pubDate then x :: insertByPubDateDesc e xs
    else e :: x :: xs

/-- Sorting the `Downloaded` episodes newest-first (the `sort.Slice` call
of `cleanup`). -/
def sortByPubDateDesc (l : List Episode) : List Episode :=
  l.foldr insertByPubDateDesc []

/-- The scrubbing mutation applied to a cleaned episode
(src/pkg/ytdl/temp_file.go, lines 606–610). -/
def cleanFields (e : Episode) : Episode :=
  { e with status := EpisodeStatus.cleaned, title := "", description := "" }

/-- One iteration of the cleanup loop (lines 598–615): attempt the blob
deletion; on failure record the episode in the aggregated error and
continue; on success scrub the episode in the store. -/
def cleanupStep (env : Env) (acc : Store × List String) (e : Episode) :
    Store × List String :=
  if env.deleteOk (env.epName e) then
    (updateEpisode acc.1 e.id cleanFields, acc.2)
  else
    (acc.1, acc.2 ++ [e.id])

/-- `cleanup` (src/pkg/ytdl/temp_file.go, lines 566–618): no-op when the
keep-last count is below 1; collect the `Downloaded` episodes in walk
order; no-op when the count exceeds their number; otherwise sort them
newest-first and run the deletion loop over every episode beyond the first
`keepLast`.  Returns the final store and the list of per-item failures
aggregated into the combined error (empty means `ErrorOrNil()` is nil). -/
def cleanup (env : Env) (cfg : FeedConfig) (store : Store) :
    Store × List String :=
  if cfg.clean.keepLast < 1 then (store, [])
  else
    let list := store.filter (fun e => e.status = EpisodeStatus.downloaded)
    if cfg.clean.keepLast > (list.length : Int) then (store, [])
    else
      let sorted := sortByPubDateDesc list
      (sorted.drop cfg.clean.keepLast.toNat).foldl (cleanupStep env) (store, [])

/-- Membership of time `t` in keep interval `iv`, over a media of duration
`d`: an interval `(start, stop)` covers `[start, stop)`, with `stop = -1`
read as "to the end of the media", i.e. `[start, d)`. -/
def memIv (d t : ℚ) (iv : KeepInterval) : Prop :=
  iv.1 ≤ t ∧ t < (if iv.2 = -1 then d else iv.2)

instance (d t : ℚ) (iv : KeepInterval) : Decidable (memIv d t iv) := by
  unfold memIv; infer_instance

/-- Time `t` lies in some keep interval of the list. -/
def InKeeps (keeps : List KeepInterval) (d t : ℚ) : Prop :=
  ∃ iv ∈ keeps, memIv d t iv

instance (keeps : List KeepInterval) (d t : ℚ) : Decidable (InKeeps keeps d t) := by
  unfold InKeeps; infer_instance

/-- Time `t` lies in some segment `[segStart, segEnd)` of the list. -/
def InCuts (segs : List Seg) (t : ℚ) : Prop :=
  ∃ s ∈ segs, s.segStart ≤ t ∧ t < s.segEnd

instance (segs : List Seg) (t : ℚ) : Decidable (InCuts segs t) := by
  unfold InCuts; infer_instance

/-- The segments are disjoint and in ascending start order, starting at or
after `cursor`, with well-formed (non-negative-length) ranges: each
segment starts no earlier than the previous segment's end. -/
def SegChain (cursor : ℚ) : List Seg → Prop
  | [] => True
  | s :: rest => cursor ≤ s.segStart ∧ s.segStart ≤ s.segEnd ∧ SegChain s.segEnd rest

instance segChainDecidable : (cursor : ℚ) → (segs : List Seg) → Decidable (SegChain cursor segs)
  | _, [] => isTrue trivial
  | _, s :: rest =>
    have : Decidable (SegChain s.segEnd rest) := segChainDecidable s.segEnd rest
    inferInstanceAs (Decidable (_ ∧ _ ∧ _))

/-- Concatenation of a list of strings, in order. -/
def strJoin : List String → String
  | [] => ""
  | s :: rest => s ++ strJoin rest

/-- The spec's description of a trim range: the interval's bounds with the
end bound omitted when it equals `-1`. -/
def specTrimBody (fmtF : ℚ → String) (iv : KeepInterval) : String :=
  fmtF iv.1 ++ (if iv.2 = -1 then "" else ":end=" ++ fmtF iv.2)

/-- The spec's audio-trim stage at position `idx`: label `s{idx}a`,
timestamp base reset. -/
def specAudioStage (fmtF : ℚ → String) (idx : Nat) (iv : KeepInterval) : String :=
  "[0:a]atrim=start=" ++ specTrimBody fmtF iv ++
    ",asetpts=PTS-STARTPTS[s" ++ toString idx ++ "a];"

/-- The spec's video-trim stage at position `idx`: label `s{idx}v`,
timestamp base reset. -/
def specVideoStage (fmtF : ℚ → String) (idx : Nat) (iv : KeepInterval) : String :=
  "[0:v]trim=start=" ++ specTrimBody fmtF iv ++
    ",setpts=PTS-STARTPTS[s" ++ toString idx ++ "v];"

/-- Both trim stages emitted at one position: the audio stage, plus the
video stage for feeds whose format is not audio-only. -/
def specStagesAt (fmtF : ℚ → String) (cfg : FeedConfig) (idx : Nat)
    (iv : KeepInterval) : String :=
  specAudioStage fmtF idx iv ++
    (if cfg.format ≠ formatAudio then specVideoStage fmtF idx iv else "")

/-- A sample episode for concrete runs. -/
def sampleEpisode (id : String) (pd : Int) (st : EpisodeStatus) : Episode :=
  { id := id, title := "t" ++ id, description := "d" ++ id, pubDate := pd,
    videoURL := "v" ++ id, size := 0, status := st }

/-- The always-failing regex matcher (its result is irrelevant for empty
patterns). -/
def reMatchNone : ReMatch := fun _ _ => none

/-- An empty filter set: all four patterns are empty. -/
def noFilters : Filters := ⟨"", "", "", ""⟩

/-- A sample feed configuration with a given page size, sponsorblock mode
and keep-last count; audio format, no filters, default-like categories. -/
def sampleCfg (ps : Int) (mode : String) (keep : Int) : FeedConfig :=
  { id := "feed1", pageSize := ps, format := formatAudio,
    filters := noFilters, clean := ⟨keep⟩, sponsorblockMode := mode,
    sponsorBlockCategories :=
      ⟨"cut", "keep", "keep", "keep", "keep", "cut"⟩ }

/-- A collaborator environment where every blob is missing, every lookup
returns no segments, every download and persist succeeds. -/
def envAllOk : Env :=
  { reMatch := reMatchNone, epName := (·.id),
    fsSize := fun _ => SizeRes.notFound,
    segments := fun _ => [], delayPassed := fun _ => true,
    download := fun _ => DlRes.ok, ffmpegOk := fun _ => true,
    createRaw := fun _ => some 100, createProcessed := fun _ => some 50,
    deleteOk := fun _ => true }

/-- A store of five fresh (`New`) episodes. -/
def storeFiveNew : Store :=
  [sampleEpisode "1" 1 EpisodeStatus.new, sampleEpisode "2" 2 EpisodeStatus.new,
   sampleEpisode "3" 3 EpisodeStatus.new, sampleEpisode "4" 4 EpisodeStatus.new,
   sampleEpisode "5" 5 EpisodeStatus.new]

/-- A store with three `Downloaded` episodes (distinct publish dates) and
one `New` episode. -/
def storeMixed : Store :=
  [sampleEpisode "a" 1 EpisodeStatus.downloaded,
   sampleEpisode "b" 2 EpisodeStatus.downloaded,
   sampleEpisode "c" 3 EpisodeStatus.downloaded,
   sampleEpisode "d" 4 EpisodeStatus.new]

/-- An environment in which every episode already has a blob of size 42 on
disk, while the segment lookup still returns nothing. -/
def envBlobOnDisk : Env :=
  { envAllOk with fsSize := fun _ => SizeRes.found 42 }

/-- An environment in which the segment lookup returns one sponsor segment
and the ffmpeg trim invocation fails. -/
def envFfmpegFails : Env :=
  { envAllOk with
    segments := fun _ => [{ segStart := 10, segEnd := 20, category := "sponsor" }],
    ffmpegOk := fun _ => false }

/-- An environment in which every download attempt is rate limited. -/
def envRateLimited : Env :=
  { envAllOk with download := fun _ => DlRes.rateLimited }

/-- A sample category policy: sponsors and non-music sections are cut,
everything else kept. -/
def demoCats : SponsorBlockCategories :=
  ⟨"cut", "keep", "keep", "keep", "keep", "cut"⟩

/-- Three sample sponsor segments: two to cut (`sponsor`,
`music_offtopic`) and one to keep (`intro`), disjoint and ascending. -/
def demoSegs : List Seg :=
  [{ segStart := 10, segEnd := 20, category := "sponsor" },
   { segStart := 25, segEnd := 30, category := "intro" },
   { segStart := 40, segEnd := 50, category := "music_offtopic" }]

/-- An episode carries exactly the metadata of a remote listing entry
(the fields that `mergeRemote` refreshes). -/
def agreeRemote (e : Episode) (r : RemoteEpisode) : Prop :=
  e.title = r.title ∧ e.description = r.description ∧
    e.pubDate = r.pubDate ∧ e.videoURL = r.videoURL

instance (e : Episode) (r : RemoteEpisode) : Decidable (agreeRemote e r) := by
  unfold agreeRemote; infer_instance

/-- A download candidate in the sense of the selection walk: status `New`
or `Error`, and all four filters pass. -/
def eligibleEpisode (m : ReMatch) (cfg : FeedConfig) (e : Episode) : Bool :=
  decide (e.status = EpisodeStatus.new ∨ e.status = EpisodeStatus.error) &&
    matchFilters m e cfg.filters

/-! ### Filter engine (claim C8) -/

theorem matchRegexpFilter_eq_true (m : ReMatch) (p s : String) (neg : Bool) :
    matchRegexpFilter m p s neg = true ↔
      (p = "" ∨ m p s = none ∨ m p s = some (!neg)) := by
  unfold matchRegexpFilter
  by_cases hp : p = ""
  · simp [hp]
  · simp only [hp, ne_eq, not_false_eq_true, if_true]
    cases h : m p s with
    | none => simp
    | some b =>
      cases b <;> cases neg <;> simp_all

/-- C8: the filter engine accepts an episode exactly when all four regex
gates pass: an empty pattern always passes, an uncompilable pattern (the
matcher returns `none`) always passes, a positive pattern (`title`,
`description`) passes exactly when it matches the field, and a negative
pattern (`not_title`, `not_description`) passes exactly when it does not
match — so a `not_title` pattern that matches the title always excludes. -/
theorem filterEngine_accepts_iff (m : ReMatch) (e : Episode) (f : Filters) :
    matchFilters m e f = true ↔
      ((f.title = "" ∨ m f.title e.title = none ∨ m f.title e.title = some true) ∧
       (f.notTitle = "" ∨ m f.notTitle e.title = none ∨ m f.notTitle e.title = some false) ∧
       (f.description = "" ∨ m f.description e.description = none ∨
         m f.description e.description = some true) ∧
       (f.notDescription = "" ∨ m f.notDescription e.description = none ∨
         m f.notDescription e.description = some false)) := by
  unfold matchFilters
  simp only [matchRegexpFilter_eq_true, Bool.not_false, Bool.not_true]
  by_cases h1 : f.title = "" ∨ m f.title e.title = none ∨ m f.title e.title = some true <;>
    by_cases h2 : f.notTitle = "" ∨ m f.notTitle e.title = none ∨
      m f.notTitle e.title = some false <;>
      by_cases h3 : f.description = "" ∨ m f.description e.description = none ∨
        m f.description e.description = some true <;>
        by_cases h4 : f.notDescription = "" ∨ m f.notDescription e.description = none ∨
          m f.notDescription e.description = some false <;>
          simp [h1, h2, h3, h4]

/-! ### Download scheduler, per-candidate step (claims C9, C10) -/

/-- `stepFetch` never defers: the deferral decision is made before the
downloader is invoked. -/
theorem stepFetch_ne_deferred (env : Env) (e : Episode) (segments : List Seg) :
    stepFetch env e segments ≠ StepOut.deferred := by
  unfold stepFetch
  cases env.download e.id <;> simp
  by_cases hs : segments = []
  · simp [hs]
    cases env.createRaw (env.epName e) <;> simp
  · simp [hs]
    by_cases hf : env.ffmpegOk e.id <;> simp [hf]
    cases env.createProcessed (env.epName e) <;> simp

/-- C9: for a candidate whose blob is not already in storage, the scheduler
defers (leaving the stored episode untouched and continuing without error)
exactly when the feed's sponsorblock mode is `require` with zero returned
segments, or `requiredelay` with zero returned segments and the configured
delay since publish not yet elapsed; in every other mode/segment
combination the download proceeds. -/
theorem scheduler_defers_iff (env : Env) (cfg : FeedConfig) (e : Episode)
    (st : Store) (rest : List Episode)
    (h : env.fsSize (env.epName e) = SizeRes.notFound) :
    (stepEpisode env cfg e = StepOut.deferred ↔
      (cfg.sponsorblockMode = "require" ∧ env.segments e.id = []) ∨
      (cfg.sponsorblockMode = "requiredelay" ∧ env.segments e.id = [] ∧
        env.delayPassed e.id = false)) ∧
    (stepEpisode env cfg e = StepOut.deferred →
      processLoop env cfg st (e :: rest) = processLoop env cfg st rest) := by
  constructor
  · unfold stepEpisode
    rw [h]
    by_cases h1 : cfg.sponsorblockMode = "require" <;>
      by_cases h2 : cfg.sponsorblockMode = "requiredelay" <;>
        by_cases h3 : cfg.sponsorblockMode = "off" <;>
          by_cases h4 : env.segments e.id = [] <;>
            by_cases h5 : env.delayPassed e.id <;>
              simp_all [stepFetch_ne_deferred]
  · intro hstep
    simp [processLoop, hstep]

/-- C10: a candidate whose derived filename already exists as a blob is
marked `Downloaded` with the existing blob's size, before any
sponsor-segment gating is evaluated: the equations hold for every feed
configuration and every segment-lookup behaviour, in particular for mode
`require` with zero returned segments. -/
theorem alreadyExists_skip_precedence (env : Env) (cfg : FeedConfig)
    (e : Episode) (st : Store) (rest : List Episode) (sz : Int)
    (h : env.fsSize (env.epName e) = SizeRes.found sz) :
    stepEpisode env cfg e = StepOut.onDisk sz ∧
    processLoop env cfg st (e :: rest) =
      processLoop env cfg (markDownloaded st e.id sz) rest := by
  have hstep : stepEpisode env cfg e = StepOut.onDisk sz := by
    unfold stepEpisode
    rw [h]
  exact ⟨hstep, by simp [processLoop, hstep]⟩

/-- Witness for C9 at a concrete input: mode `require`, no blob on disk,
zero returned segments. -/
theorem scheduler_defers_iff_witness :
    (stepEpisode envAllOk (sampleCfg 3 "require" 0)
        (sampleEpisode "1" 1 EpisodeStatus.new) = StepOut.deferred ↔
      ((sampleCfg 3 "require" 0).sponsorblockMode = "require" ∧
        envAllOk.segments (sampleEpisode "1" 1 EpisodeStatus.new).id = []) ∨
      ((sampleCfg 3 "require" 0).sponsorblockMode = "requiredelay" ∧
        envAllOk.segments (sampleEpisode "1" 1 EpisodeStatus.new).id = [] ∧
        envAllOk.delayPassed (sampleEpisode "1" 1 EpisodeStatus.new).id = false)) ∧
    (stepEpisode envAllOk (sampleCfg 3 "require" 0)
        (sampleEpisode "1" 1 EpisodeStatus.new) = StepOut.deferred →
      processLoop envAllOk (sampleCfg 3 "require" 0) storeFiveNew
          [sampleEpisode "1" 1 EpisodeStatus.new] =
        processLoop envAllOk (sampleCfg 3 "require" 0) storeFiveNew []) :=
  scheduler_defers_iff envAllOk (sampleCfg 3 "require" 0)
    (sampleEpisode "1" 1 EpisodeStatus.new) storeFiveNew [] rfl

/-- Witness for C10 at a concrete input: the blob exists with size 42 while
the mode is `require` and the lookup returns zero segments. -/
theorem alreadyExists_skip_precedence_witness :
    stepEpisode envBlobOnDisk (sampleCfg 3 "require" 0)
        (sampleEpisode "1" 1 EpisodeStatus.new) = StepOut.onDisk 42 ∧
    processLoop envBlobOnDisk (sampleCfg 3 "require" 0) storeFiveNew
        [sampleEpisode "1" 1 EpisodeStatus.new] =
      processLoop envBlobOnDisk (sampleCfg 3 "require" 0)
        (markDownloaded storeFiveNew (sampleEpisode "1" 1 EpisodeStatus.new).id 42) [] :=
  alreadyExists_skip_precedence envBlobOnDisk (sampleCfg 3 "require" 0)
    (sampleEpisode "1" 1 EpisodeStatus.new) storeFiveNew [] 42 rfl

/-! ### Download scheduler, batch error handling (claim C4) -/

/-- Evaluation of the per-candidate step once the blob is known to be
absent from storage. -/
theorem stepEpisode_notFound (env : Env) (cfg : FeedConfig) (e : Episode)
    (h : env.fsSize (env.epName e) = SizeRes.notFound) :
    stepEpisode env cfg e =
      (if cfg.sponsorblockMode = "require" ∧
          (if cfg.sponsorblockMode ≠ "off" then env.segments e.id else []) = [] then
        StepOut.deferred
      else if cfg.sponsorblockMode = "requiredelay" ∧
          (if cfg.sponsorblockMode ≠ "off" then env.segments e.id else []) = [] ∧
          ¬ env.delayPassed e.id then
        StepOut.deferred
      else
        stepFetch env e
          (if cfg.sponsorblockMode ≠ "off" then env.segments e.id else [])) := by
  unfold stepEpisode
  rw [h]

/-- C4 counterexample: a transcoder (ffmpeg) failure on the first of two
candidates does not mark that episode `Error` and does not continue with
the next candidate — it aborts the whole `downloadEpisodes` call with an
error, leaving every episode `New`. -/
theorem transcoderFailure_counterexample :
    (processLoop envFfmpegFails (sampleCfg 3 "require" 0) storeFiveNew
        [sampleEpisode "1" 1 EpisodeStatus.new,
         sampleEpisode "2" 2 EpisodeStatus.new]).2 = some RunError.ffmpegFail ∧
    ((processLoop envFfmpegFails (sampleCfg 3 "require" 0) storeFiveNew
        [sampleEpisode "1" 1 EpisodeStatus.new,
         sampleEpisode "2" 2 EpisodeStatus.new]).1.all
      (fun e => e.status = EpisodeStatus.new)) = true := by
  constructor <;> rfl

/-- C4 (amended): for a candidate whose blob is absent and which is not
deferred — (a) a rate-limited download aborts the entire remaining batch at
once, leaving the store exactly as it was before this candidate and
returning no error; (b) any other download failure marks the episode
`Error` and processing continues with the next candidate; (c) a transcoder
failure (sponsor segments present, ffmpeg fails) aborts the run with an
error, leaving the failing episode unmarked and the remaining candidates
unprocessed. -/
theorem downloadBatch_error_containment (env : Env) (cfg : FeedConfig)
    (e : Episode) (st : Store) (rest : List Episode)
    (hblob : env.fsSize (env.epName e) = SizeRes.notFound)
    (hdef : stepEpisode env cfg e ≠ StepOut.deferred) :
    (env.download e.id = DlRes.rateLimited →
      processLoop env cfg st (e :: rest) = (st, none)) ∧
    (env.download e.id = DlRes.dlError →
      processLoop env cfg st (e :: rest) =
        processLoop env cfg (markError st e.id) rest) ∧
    (env.download e.id = DlRes.ok →
      (if cfg.sponsorblockMode ≠ "off" then env.segments e.id else []) ≠ [] →
      env.ffmpegOk e.id = false →
      processLoop env cfg st (e :: rest) = (st, some RunError.ffmpegFail)) := by
  have hnf := stepEpisode_notFound env cfg e hblob
  set segs := (if cfg.sponsorblockMode ≠ "off" then env.segments e.id else [])
  rw [hnf] at hdef
  split_ifs at hdef with hc1 hc2
  · exact absurd rfl hdef
  · exact absurd rfl hdef
  have hstep : stepEpisode env cfg e = stepFetch env e segs := by
    rw [hnf, if_neg hc1, if_neg hc2]
  refine ⟨?_, ?_, ?_⟩
  · intro hdl
    have hs : stepEpisode env cfg e = StepOut.rateLimit := by
      rw [hstep]
      unfold stepFetch
      rw [hdl]
    simp [processLoop, hs]
  · intro hdl
    have hs : stepEpisode env cfg e = StepOut.dlFailed := by
      rw [hstep]
      unfold stepFetch
      rw [hdl]
    simp [processLoop, hs]
  · intro hdl hne hff
    have hs : stepEpisode env cfg e = StepOut.ffmpegAbort := by
      rw [hstep]
      unfold stepFetch
      rw [hdl, if_neg hne, hff]
      simp
    simp [processLoop, hs]

/-- Witness for the amended C4 at a concrete input: the rate-limit abort on
the 2nd of 5 candidates (the 1st already marked downloaded) leaves
candidates 3–5 untouched and returns no error. -/
theorem downloadBatch_error_containment_witness :
    (envRateLimited.download (sampleEpisode "2" 2 EpisodeStatus.new).id =
        DlRes.rateLimited →
      processLoop envRateLimited (sampleCfg 9 "off" 0)
          (markDownloaded storeFiveNew "1" 100)
          [sampleEpisode "2" 2 EpisodeStatus.new,
           sampleEpisode "3" 3 EpisodeStatus.new,
           sampleEpisode "4" 4 EpisodeStatus.new,
           sampleEpisode "5" 5 EpisodeStatus.new] =
        (markDownloaded storeFiveNew "1" 100, none)) ∧
    (envRateLimited.download (sampleEpisode "2" 2 EpisodeStatus.new).id =
        DlRes.dlError →
      processLoop envRateLimited (sampleCfg 9 "off" 0)
          (markDownloaded storeFiveNew "1" 100)
          [sampleEpisode "2" 2 EpisodeStatus.new,
           sampleEpisode "3" 3 EpisodeStatus.new,
           sampleEpisode "4" 4 EpisodeStatus.new,
           sampleEpisode "5" 5 EpisodeStatus.new] =
        processLoop envRateLimited (sampleCfg 9 "off" 0)
          (markError (markDownloaded storeFiveNew "1" 100)
            (sampleEpisode "2" 2 EpisodeStatus.new).id)
          [sampleEpisode "3" 3 EpisodeStatus.new,
           sampleEpisode "4" 4 EpisodeStatus.new,
           sampleEpisode "5" 5 EpisodeStatus.new]) ∧
    (envRateLimited.download (sampleEpisode "2" 2 EpisodeStatus.new).id = DlRes.ok →
      (if (sampleCfg 9 "off" 0).sponsorblockMode ≠ "off" then
        envRateLimited.segments (sampleEpisode "2" 2 EpisodeStatus.new).id
      else []) ≠ [] →
      envRateLimited.ffmpegOk (sampleEpisode "2" 2 EpisodeStatus.new).id = false →
      processLoop envRateLimited (sampleCfg 9 "off" 0)
          (markDownloaded storeFiveNew "1" 100)
          [sampleEpisode "2" 2 EpisodeStatus.new,
           sampleEpisode "3" 3 EpisodeStatus.new,
           sampleEpisode "4" 4 EpisodeStatus.new,
           sampleEpisode "5" 5 EpisodeStatus.new] =
        (markDownloaded storeFiveNew "1" 100, some RunError.ffmpegFail)) :=
  downloadBatch_error_containment envRateLimited (sampleCfg 9 "off" 0)
    (sampleEpisode "2" 2 EpisodeStatus.new)
    (markDownloaded storeFiveNew "1" 100)
    [sampleEpisode "3" 3 EpisodeStatus.new,
     sampleEpisode "4" 4 EpisodeStatus.new,
     sampleEpisode "5" 5 EpisodeStatus.new]
    rfl (by decide)

/-! ### Download scheduler, candidate selection budget (claim C3) -/

/-- Closed form of the candidate-selection walk: the budget is decremented
only for eligible (status `New`/`Error`, filter-passing) episodes, and the
walk queues exactly the first `max (b - 1) 0` eligible episodes. -/
theorem buildDownloadList_eq_take (m : ReMatch) (cfg : FeedConfig) :
    ∀ (b : Int) (store : Store),
      buildDownloadList m cfg b store =
        (store.filter (eligibleEpisode m cfg)).take (b - 1).toNat := by
  intro b store
  induction store generalizing b with
  | nil => simp [buildDownloadList]
  | cons e rest ih =>
    simp only [buildDownloadList]
    by_cases hsk : e.status ≠ EpisodeStatus.new ∧ e.status ≠ EpisodeStatus.error
    · have helig : eligibleEpisode m cfg e = false := by
        simp [eligibleEpisode, hsk.1, hsk.2]
      rw [if_pos hsk, ih, List.filter_cons]
      simp [helig]
    · have hstat : e.status = EpisodeStatus.new ∨ e.status = EpisodeStatus.error := by
        rcases not_and_or.mp hsk with h | h
        · exact Or.inl (not_not.mp h)
        · exact Or.inr (not_not.mp h)
      rw [if_neg hsk]
      by_cases hm : matchFilters m e cfg.filters
      · have helig : eligibleEpisode m cfg e = true := by
          simp [eligibleEpisode, hstat, hm]
        rw [if_neg (not_not_intro hm), List.filter_cons]
        simp only [helig, if_true]
        by_cases hb : b - 1 ≤ 0
        · rw [if_pos hb, ih]
          have h1 : (b - 1).toNat = 0 := by omega
          have h2 : (b - 1 - 1).toNat = 0 := by omega
          rw [h1, h2]
          simp
        · rw [if_neg hb, ih]
          have h1 : (b - 1).toNat = (b - 1 - 1).toNat + 1 := by omega
          rw [h1, List.take_succ_cons]
      · have helig : eligibleEpisode m cfg e = false := by
          simp [eligibleEpisode, hm]
        rw [if_pos hm, ih, List.filter_cons]
        simp [helig]

/-- C3 counterexample: with a page-size budget of 3 and five eligible
(`New`, filter-passing) episodes, only 2 episodes are queued for download
— not 3 — and after the run 3 episodes are left `New` — not 2. -/
theorem downloadBudget_counterexample :
    (buildDownloadList reMatchNone (sampleCfg 3 "off" 0) 3 storeFiveNew).length = 2 ∧
    ((downloadEpisodes envAllOk (sampleCfg 3 "off" 0) storeFiveNew).1.countP
      (fun e => e.status = EpisodeStatus.new)) = 3 := by
  constructor <;> rfl

/-- C3 (amended): the page-size budget is decremented once for every
eligible episode (status `New`/`Error` and filter-passing; ineligible
episodes do not consume budget), appending stops once the decremented
budget reaches zero, so the queue holds the first `max (pageSize - 1) 0`
eligible episodes; in particular with a budget of 3 and 5 eligible
episodes exactly 2 are evaluated for download and the remaining 3 are
left `New` for the next run. -/
theorem downloadBudget_throttles_selection (m : ReMatch) (cfg : FeedConfig)
    (store : Store) :
    buildDownloadList m cfg cfg.pageSize store =
      (store.filter (eligibleEpisode m cfg)).take (cfg.pageSize - 1).toNat ∧
    (buildDownloadList reMatchNone (sampleCfg 3 "off" 0) 3 storeFiveNew).length = 2 ∧
    ((downloadEpisodes envAllOk (sampleCfg 3 "off" 0) storeFiveNew).1.countP
      (fun e => e.status = EpisodeStatus.new)) = 3 := by
  exact ⟨buildDownloadList_eq_take m cfg cfg.pageSize store, rfl, rfl⟩

/-! ### Episode reconciler (claims C1, C2) -/

theorem mem_deleteEpisode (s : Store) (id : String) (e : Episode) :
    e ∈ deleteEpisode s id ↔ e ∈ s ∧ e.id ≠ id := by
  simp [deleteEpisode, List.mem_filter]

theorem mem_foldl_deleteEpisode (ids : List String) :
    ∀ (s : Store) (e : Episode),
      e ∈ ids.foldl deleteEpisode s ↔ e ∈ s ∧ e.id ∉ ids := by
  induction ids with
  | nil => simp
  | cons id ids ih =>
    intro s e
    rw [List.foldl_cons, ih, mem_deleteEpisode]
    constructor
    · rintro ⟨⟨hs, hne⟩, hnm⟩
      exact ⟨hs, by simp [hne, hnm]⟩
    · rintro ⟨hs, hnm⟩
      simp only [List.mem_cons, not_or] at hnm
      exact ⟨⟨hs, hnm.1⟩, hnm.2⟩

theorem id_mem_upsertEpisode (t : Store) (r : RemoteEpisode) (i : String) :
    (∃ x ∈ upsertEpisode t r, x.id = i) ↔ (∃ x ∈ t, x.id = i) ∨ i = r.id := by
  unfold upsertEpisode
  by_cases hany : t.any (fun e => e.id = r.id)
  · have hex : ∃ x ∈ t, x.id = r.id := by
      simpa [List.any_eq_true] using hany
    rw [if_pos hany]
    constructor
    · rintro ⟨x, hx, hxi⟩
      rcases List.mem_map.mp hx with ⟨y, hy, hyx⟩
      by_cases hid : y.id = r.id
      · subst hyx
        left
        refine ⟨y, hy, ?_⟩
        simpa [hid, mergeRemote] using hxi
      · subst hyx
        left
        refine ⟨y, hy, ?_⟩
        simpa [hid] using hxi
    · intro h
      rcases h with ⟨x, hx, hxi⟩ | hi
      · by_cases hid : x.id = r.id
        · exact ⟨mergeRemote x r, List.mem_map.mpr ⟨x, hx, by simp [hid]⟩,
            by simp [mergeRemote, hxi]⟩
        · exact ⟨x, List.mem_map.mpr ⟨x, hx, by simp [hid]⟩, hxi⟩
      · rcases hex with ⟨x, hx, hxi⟩
        by_cases hid : x.id = r.id
        · exact ⟨mergeRemote x r, List.mem_map.mpr ⟨x, hx, by simp [hid]⟩,
            by simp [mergeRemote, hxi, hi]⟩
        · exact absurd hxi hid
  · rw [if_neg hany]
    constructor
    · rintro ⟨x, hx, hxi⟩
      rcases List.mem_append.mp hx with hx | hx
      · exact Or.inl ⟨x, hx, hxi⟩
      · simp only [List.mem_singleton] at hx
        subst hx
        exact Or.inr (by simpa [remoteToNew] using hxi.symm)
    · intro h
      rcases h with ⟨x, hx, hxi⟩ | hi
      · exact ⟨x, List.mem_append.mpr (Or.inl hx), hxi⟩
      · exact ⟨remoteToNew r, List.mem_append.mpr (Or.inr (by simp)),
          by simp [remoteToNew, hi]⟩

theorem id_mem_addFeed (l : List RemoteEpisode) :
    ∀ (t : Store) (i : String),
      (∃ x ∈ addFeed t l, x.id = i) ↔
        (∃ x ∈ t, x.id = i) ∨ i ∈ l.map (·.id) := by
  induction l with
  | nil => simp [addFeed]
  | cons r l ih =>
    intro t i
    show (∃ x ∈ addFeed (upsertEpisode t r) l, x.id = i) ↔ _
    rw [ih, id_mem_upsertEpisode]
    simp only [List.map_cons, List.mem_cons]
    exact or_assoc

/-- The removal set of `updateFeedStore`, characterised: an ID is slated
for deletion exactly when some stored episode carries it with a status
other than `Downloaded`/`Cleaned`, and it is absent from the listing. -/
theorem mem_removalSet (store : Store) (listing : List RemoteEpisode) (i : String) :
    (i ∈ ((store.filter (fun e => e.status ≠ EpisodeStatus.downloaded ∧
        e.status ≠ EpisodeStatus.cleaned)).map (·.id)).filter
          (fun id => ¬ listing.any (fun r => r.id = id))) ↔
      ((∃ x ∈ store, (x.status ≠ EpisodeStatus.downloaded ∧
          x.status ≠ EpisodeStatus.cleaned) ∧ x.id = i) ∧
        i ∉ listing.map (·.id)) := by
  have hany : (listing.any (fun r => r.id = i) = true) ↔ i ∈ listing.map (·.id) := by
    rw [List.any_eq_true]
    simp only [List.mem_map, decide_eq_true_eq]
  have hset : (i ∈ (store.filter (fun e => e.status ≠ EpisodeStatus.downloaded ∧
        e.status ≠ EpisodeStatus.cleaned)).map (·.id)) ↔
      (∃ x ∈ store, (x.status ≠ EpisodeStatus.downloaded ∧
        x.status ≠ EpisodeStatus.cleaned) ∧ x.id = i) := by
    simp only [List.mem_map, List.mem_filter, decide_eq_true_eq]
    constructor
    · rintro ⟨x, ⟨hx, hc⟩, hxi⟩
      exact ⟨x, hx, hc, hxi⟩
    · rintro ⟨x, hx, hc, hxi⟩
      exact ⟨x, ⟨hx, hc⟩, hxi⟩
  rw [List.mem_filter]
  constructor
  · rintro ⟨hmem, hdec⟩
    refine ⟨hset.mp hmem, ?_⟩
    intro hin
    exact (of_decide_eq_true hdec) (hany.mpr hin)
  · rintro ⟨hex, habs⟩
    exact ⟨hset.mpr hex, decide_eq_true (fun h => habs (hany.mp h))⟩

/-- C1: after reconciliation against a fresh remote listing, a previously
stored episode is deleted exactly when its status was `New` or `Error` and
its ID is absent from the listing; in particular a `Downloaded` or
`Cleaned` episode is never deleted by absence. -/
theorem reconciler_deletes_iff (store : Store) (listing : List RemoteEpisode)
    (hN : (store.map (·.id)).Nodup) (e : Episode) (he : e ∈ store) :
    (¬ ∃ x ∈ updateFeedStore store listing, x.id = e.id) ↔
      ((e.status = EpisodeStatus.new ∨ e.status = EpisodeStatus.error) ∧
        e.id ∉ listing.map (·.id)) := by
  have hchar : (∃ x ∈ updateFeedStore store listing, x.id = e.id) ↔
      ¬ ((∃ x ∈ store, (x.status ≠ EpisodeStatus.downloaded ∧
          x.status ≠ EpisodeStatus.cleaned) ∧ x.id = e.id) ∧
        e.id ∉ listing.map (·.id)) := by
    unfold updateFeedStore
    constructor
    · rintro ⟨x, hx, hxi⟩
      rw [mem_foldl_deleteEpisode] at hx
      intro hcond
      exact hx.2 (by rw [hxi]; exact (mem_removalSet store listing e.id).mpr hcond)
    · intro hcond
      have hmerged : ∃ x ∈ addFeed store listing, x.id = e.id :=
        (id_mem_addFeed listing store e.id).mpr (Or.inl ⟨e, he, rfl⟩)
      rcases hmerged with ⟨x, hx, hxi⟩
      refine ⟨x, ?_, hxi⟩
      rw [mem_foldl_deleteEpisode]
      refine ⟨hx, fun hrem => hcond ?_⟩
      rw [hxi] at hrem
      exact (mem_removalSet store listing e.id).mp hrem
  have huniq : (∃ x ∈ store, (x.status ≠ EpisodeStatus.downloaded ∧
      x.status ≠ EpisodeStatus.cleaned) ∧ x.id = e.id) ↔
      (e.status ≠ EpisodeStatus.downloaded ∧ e.status ≠ EpisodeStatus.cleaned) := by
    constructor
    · rintro ⟨x, hx, hcond, hxi⟩
      have hxe : x = e := List.inj_on_of_nodup_map hN hx he hxi
      exact hxe ▸ hcond
    · intro h
      exact ⟨e, he, h, rfl⟩
  have hstatus : (e.status ≠ EpisodeStatus.downloaded ∧
      e.status ≠ EpisodeStatus.cleaned) ↔
      (e.status = EpisodeStatus.new ∨ e.status = EpisodeStatus.error) := by
    cases e.status <;> simp
  rw [hchar, not_not, huniq, hstatus]

/-- Witness for C1 at a concrete input: a two-episode store (one
`Downloaded`, one `New`) reconciled against an empty listing. -/
theorem reconciler_deletes_iff_witness :
    (¬ ∃ x ∈ updateFeedStore
        [sampleEpisode "a" 1 EpisodeStatus.downloaded,
         sampleEpisode "b" 2 EpisodeStatus.new] [],
      x.id = (sampleEpisode "b" 2 EpisodeStatus.new).id) ↔
      (((sampleEpisode "b" 2 EpisodeStatus.new).status = EpisodeStatus.new ∨
        (sampleEpisode "b" 2 EpisodeStatus.new).status = EpisodeStatus.error) ∧
        (sampleEpisode "b" 2 EpisodeStatus.new).id ∉
          ([] : List RemoteEpisode).map (·.id)) :=
  reconciler_deletes_iff
    [sampleEpisode "a" 1 EpisodeStatus.downloaded,
     sampleEpisode "b" 2 EpisodeStatus.new] []
    (by decide) (sampleEpisode "b" 2 EpisodeStatus.new) (by decide)

theorem mergeRemote_eq_self {e : Episode} {r : RemoteEpisode}
    (h : agreeRemote e r) : mergeRemote e r = e := by
  obtain ⟨h1, h2, h3, h4⟩ := h
  unfold mergeRemote
  cases e
  simp_all

theorem mem_addFeed_of_id_not_mem (l : List RemoteEpisode) :
    ∀ (t : Store) (e : Episode), e.id ∉ l.map (·.id) →
      (e ∈ addFeed t l ↔ e ∈ t) := by
  induction l with
  | nil => intro t e _; exact Iff.rfl
  | cons r l ih =>
    intro t e h
    have hne : e.id ≠ r.id ∧ e.id ∉ l.map (·.id) := by
      simpa [not_or] using h
    show e ∈ addFeed (upsertEpisode t r) l ↔ e ∈ t
    rw [ih _ _ hne.2]
    unfold upsertEpisode
    by_cases hany : t.any (fun x => x.id = r.id)
    · rw [if_pos hany]
      constructor
      · intro hm
        rcases List.mem_map.mp hm with ⟨y, hy, hye⟩
        by_cases hid : y.id = r.id
        · exfalso
          apply hne.1
          rw [← hye]
          simp [hid, mergeRemote]
        · simp only [if_neg hid] at hye
          exact hye ▸ hy
      · intro hm
        refine List.mem_map.mpr ⟨e, hm, ?_⟩
        simp [if_neg hne.1]
    · rw [if_neg hany]
      rw [List.mem_append]
      constructor
      · rintro (hm | hm)
        · exact hm
        · exfalso
          apply hne.1
          simp only [List.mem_singleton] at hm
          rw [hm]
          rfl
      · exact Or.inl

theorem agree_of_mem_upsert (t : Store) (r : RemoteEpisode) (e : Episode)
    (he : e ∈ upsertEpisode t r) (hid : e.id = r.id) : agreeRemote e r := by
  unfold upsertEpisode at he
  by_cases hany : t.any (fun x => x.id = r.id)
  · rw [if_pos hany] at he
    rcases List.mem_map.mp he with ⟨y, hy, hye⟩
    by_cases h : y.id = r.id
    · simp only [if_pos h] at hye
      rw [← hye]
      exact ⟨rfl, rfl, rfl, rfl⟩
    · simp only [if_neg h] at hye
      exact absurd (hye ▸ hid) h
  · rw [if_neg hany] at he
    rcases List.mem_append.mp he with h | h
    · exact absurd (List.any_eq_true.mpr ⟨e, h, by simpa using hid⟩) hany
    · simp only [List.mem_singleton] at h
      rw [h]
      exact ⟨rfl, rfl, rfl, rfl⟩

theorem agree_of_mem_addFeed (l : List RemoteEpisode) :
    ∀ (t : Store), (l.map (·.id)).Nodup →
      ∀ r ∈ l, ∀ e ∈ addFeed t l, e.id = r.id → agreeRemote e r := by
  induction l with
  | nil =>
    intro t _ r hr
    exact absurd hr (List.not_mem_nil r)
  | cons x l ih =>
    intro t hnd r hr e he hid
    have hnd2 : (x.id :: l.map (·.id)).Nodup := by simpa using hnd
    have hnotin : x.id ∉ l.map (·.id) := (List.nodup_cons.mp hnd2).1
    have hnd' : (l.map (·.id)).Nodup := (List.nodup_cons.mp hnd2).2
    rcases List.mem_cons.mp hr with hrx | hrl
    · subst hrx
      have hmem : e ∈ upsertEpisode t r :=
        (mem_addFeed_of_id_not_mem l (upsertEpisode t r) e (hid ▸ hnotin)).mp he
      exact agree_of_mem_upsert t r e hmem hid
    · exact ih (upsertEpisode t x) hnd' r hrl e he hid

theorem addFeed_preserves_status (l : List RemoteEpisode) :
    ∀ (t : Store) (e : Episode), e ∈ t →
      ∃ x ∈ addFeed t l, x.id = e.id ∧ x.status = e.status := by
  induction l with
  | nil =>
    intro t e he
    exact ⟨e, he, rfl, rfl⟩
  | cons r l ih =>
    intro t e he
    have hup : ∃ y ∈ upsertEpisode t r, y.id = e.id ∧ y.status = e.status := by
      unfold upsertEpisode
      by_cases hany : t.any (fun x => x.id = r.id)
      · rw [if_pos hany]
        refine ⟨if e.id = r.id then mergeRemote e r else e,
          List.mem_map.mpr ⟨e, he, rfl⟩, ?_⟩
        by_cases h : e.id = r.id <;> simp [h, mergeRemote]
      · rw [if_neg hany]
        exact ⟨e, List.mem_append.mpr (Or.inl he), rfl, rfl⟩
    rcases hup with ⟨y, hy, hyi, hys⟩
    rcases ih (upsertEpisode t r) y hy with ⟨x, hx, hxi, hxs⟩
    exact ⟨x, hx, hxi.trans hyi, hxs.trans hys⟩

theorem addFeed_eq_self (l : List RemoteEpisode) :
    ∀ (S : Store),
      (∀ r ∈ l, ∃ x ∈ S, x.id = r.id) →
      (∀ r ∈ l, ∀ e ∈ S, e.id = r.id → agreeRemote e r) →
      addFeed S l = S := by
  induction l with
  | nil =>
    intro S _ _
    rfl
  | cons r l ih =>
    intro S hpres hagree
    have hup : upsertEpisode S r = S := by
      unfold upsertEpisode
      have hany : S.any (fun x => x.id = r.id) = true := by
        rcases hpres r (by simp) with ⟨x, hx, hxi⟩
        exact List.any_eq_true.mpr ⟨x, hx, by simpa using hxi⟩
      rw [if_pos hany]
      have hid : ∀ e ∈ S, (if e.id = r.id then mergeRemote e r else e) = e := by
        intro e heS
        by_cases h : e.id = r.id
        · rw [if_pos h]
          exact mergeRemote_eq_self (hagree r (by simp) e heS h)
        · rw [if_neg h]
      exact (List.map_congr_left hid).trans (List.map_id S)
    show addFeed (upsertEpisode S r) l = S
    rw [hup]
    exact ih S (fun r' hr' => hpres r' (List.mem_cons_of_mem _ hr'))
      (fun r' hr' => hagree r' (List.mem_cons_of_mem _ hr'))

/-- C2: reconciliation is idempotent — running the reconciler twice in a
row with the same remote listing yields exactly the same store as running
it once — and no `Downloaded` or `Cleaned` episode is ever deleted by a
run (its ID and status survive). -/
theorem reconciler_idempotent (store : Store) (listing : List RemoteEpisode)
    (hN : (store.map (·.id)).Nodup) (hL : (listing.map (·.id)).Nodup) :
    updateFeedStore (updateFeedStore store listing) listing =
      updateFeedStore store listing ∧
    (∀ e ∈ store,
      (e.status = EpisodeStatus.downloaded ∨ e.status = EpisodeStatus.cleaned) →
      ∃ x ∈ updateFeedStore store listing, x.id = e.id ∧ x.status = e.status) := by
  have hdef : ∀ (st : Store) (l : List RemoteEpisode), updateFeedStore st l =
      (((st.filter (fun e => e.status ≠ EpisodeStatus.downloaded ∧
          e.status ≠ EpisodeStatus.cleaned)).map (·.id)).filter
        (fun id => ¬ l.any (fun r => r.id = id))).foldl deleteEpisode
          (addFeed st l) :=
    fun _ _ => rfl
  set S1 := updateFeedStore store listing with hS1
  have hS1m : ∀ x : Episode, x ∈ S1 ↔ x ∈ addFeed store listing ∧
      ¬ ((∃ y ∈ store, (y.status ≠ EpisodeStatus.downloaded ∧
          y.status ≠ EpisodeStatus.cleaned) ∧ y.id = x.id) ∧
        x.id ∉ listing.map (·.id)) := by
    intro x
    rw [hS1, hdef store listing, mem_foldl_deleteEpisode]
    constructor
    · rintro ⟨h1, h2⟩
      exact ⟨h1, fun hc => h2 ((mem_removalSet store listing x.id).mpr hc)⟩
    · rintro ⟨h1, h2⟩
      exact ⟨h1, fun hc => h2 ((mem_removalSet store listing x.id).mp hc)⟩
  have hpres : ∀ r ∈ listing, ∃ x ∈ S1, x.id = r.id := by
    intro r hr
    rcases (id_mem_addFeed listing store r.id).mpr
        (Or.inr (List.mem_map.mpr ⟨r, hr, rfl⟩)) with ⟨x, hx, hxi⟩
    refine ⟨x, ?_, hxi⟩
    rw [hS1m x]
    refine ⟨hx, ?_⟩
    rintro ⟨_, habs⟩
    exact habs (by rw [hxi]; exact List.mem_map.mpr ⟨r, hr, rfl⟩)
  have hagree : ∀ r ∈ listing, ∀ e ∈ S1, e.id = r.id → agreeRemote e r := by
    intro r hr e he hid
    exact agree_of_mem_addFeed listing store hL r hr e ((hS1m e).mp he).1 hid
  have hC : ∀ e ∈ S1, (e.status ≠ EpisodeStatus.downloaded ∧
      e.status ≠ EpisodeStatus.cleaned) → e.id ∈ listing.map (·.id) := by
    intro e he hcond
    by_contra habs
    have h1 := (hS1m e).mp he
    have hstore : e ∈ store :=
      (mem_addFeed_of_id_not_mem listing store e habs).mp h1.1
    exact h1.2 ⟨⟨e, hstore, hcond, rfl⟩, habs⟩
  constructor
  · rw [hdef S1 listing]
    have hempty : ((S1.filter (fun e => e.status ≠ EpisodeStatus.downloaded ∧
        e.status ≠ EpisodeStatus.cleaned)).map (·.id)).filter
          (fun id => ¬ listing.any (fun r => r.id = id)) = [] := by
      rw [List.filter_eq_nil_iff]
      intro i hi
      rcases List.mem_map.mp hi with ⟨e, he, hei⟩
      rw [List.mem_filter] at he
      have hcond : e.status ≠ EpisodeStatus.downloaded ∧
          e.status ≠ EpisodeStatus.cleaned := of_decide_eq_true he.2
      have hin : i ∈ listing.map (·.id) := hei ▸ hC e he.1 hcond
      intro hdec
      rcases List.mem_map.mp hin with ⟨r, hr, hri⟩
      exact (of_decide_eq_true hdec)
        (List.any_eq_true.mpr ⟨r, hr, decide_eq_true hri⟩)
    rw [hempty]
    exact addFeed_eq_self listing S1 hpres hagree
  · intro e he hst
    rcases addFeed_preserves_status listing store e he with ⟨x, hx, hxi, hxs⟩
    refine ⟨x, ?_, hxi, hxs⟩
    rw [hS1m x]
    refine ⟨hx, ?_⟩
    rintro ⟨⟨y, hy, hcond, hyi⟩, _⟩
    have hye : y = e := List.inj_on_of_nodup_map hN hy he (by rw [hyi, hxi])
    rcases hst with h | h
    · exact hcond.1 (hye ▸ h)
    · exact hcond.2 (hye ▸ h)

/-- Witness for C2 at a concrete input: a store holding one `Downloaded`
and one `New` episode, reconciled twice against a one-episode listing. -/
theorem reconciler_idempotent_witness :
    updateFeedStore (updateFeedStore
        [sampleEpisode "a" 1 EpisodeStatus.downloaded,
         sampleEpisode "b" 2 EpisodeStatus.new]
        [{ id := "c", title := "tc", description := "dc", pubDate := 3,
           videoURL := "vc" }])
      [{ id := "c", title := "tc", description := "dc", pubDate := 3,
         videoURL := "vc" }] =
      updateFeedStore
        [sampleEpisode "a" 1 EpisodeStatus.downloaded,
         sampleEpisode "b" 2 EpisodeStatus.new]
        [{ id := "c", title := "tc", description := "dc", pubDate := 3,
           videoURL := "vc" }] ∧
    (∀ e ∈ ([sampleEpisode "a" 1 EpisodeStatus.downloaded,
         sampleEpisode "b" 2 EpisodeStatus.new] : Store),
      (e.status = EpisodeStatus.downloaded ∨ e.status = EpisodeStatus.cleaned) →
      ∃ x ∈ updateFeedStore
          [sampleEpisode "a" 1 EpisodeStatus.downloaded,
           sampleEpisode "b" 2 EpisodeStatus.new]
          [{ id := "c", title := "tc", description := "dc", pubDate := 3,
             videoURL := "vc" }],
        x.id = e.id ∧ x.status = e.status) :=
  reconciler_idempotent
    [sampleEpisode "a" 1 EpisodeStatus.downloaded,
     sampleEpisode "b" 2 EpisodeStatus.new]
    [{ id := "c", title := "tc", description := "dc", pubDate := 3,
       videoURL := "vc" }]
    (by decide) (by decide)

/-! ### Segment planner (claim C5) -/

theorem segChain_le_start {cursor : ℚ} {segs : List Seg}
    (h : SegChain cursor segs) : ∀ s ∈ segs, cursor ≤ s.segStart := by
  induction segs generalizing cursor with
  | nil =>
    intro s hs
    exact absurd hs (List.not_mem_nil s)
  | cons x rest ih =>
    intro s hs
    obtain ⟨h1, h2, h3⟩ := h
    rcases List.mem_cons.mp hs with rfl | hs'
    · exact h1
    · exact le_trans (le_trans h1 h2) (ih h3 s hs')

theorem keepsFrom_filter (c : SponsorBlockCategories) :
    ∀ (segs : List Seg) (cursor : ℚ),
      keepsFrom c cursor segs =
        keepsFrom c cursor (segs.filter (fun s => ¬ segmentKept c s.category)) := by
  intro segs
  induction segs with
  | nil =>
    intro cursor
    rfl
  | cons s rest ih =>
    intro cursor
    by_cases hk : segmentKept c s.category = true
    · have hstep : keepsFrom c cursor (s :: rest) = keepsFrom c cursor rest := by
        simp only [keepsFrom]
        rw [if_pos hk]
      rw [hstep, List.filter_cons, if_neg (by simp [hk]), ih]
    · have hstep : keepsFrom c cursor (s :: rest) =
          (cursor, s.segStart) :: keepsFrom c s.segEnd rest := by
        simp only [keepsFrom]
        rw [if_neg hk]
      rw [hstep, List.filter_cons, if_pos (by simp [hk])]
      simp only [keepsFrom]
      rw [if_neg hk, ih]

theorem keepsFrom_start_ge (c : SponsorBlockCategories) :
    ∀ (segs : List Seg) (cursor : ℚ), SegChain cursor segs →
      (∀ s ∈ segs, segmentKept c s.category = false) →
      ∀ iv ∈ keepsFrom c cursor segs, cursor ≤ iv.1 := by
  intro segs
  induction segs with
  | nil =>
    intro cursor _ _ iv hiv
    simp only [keepsFrom, List.mem_singleton] at hiv
    rw [hiv]
  | cons s rest ih =>
    intro cursor hchain hnc iv hiv
    obtain ⟨h1, h2, h3⟩ := hchain
    have hs_nc : segmentKept c s.category = false := hnc s (by simp)
    simp only [keepsFrom] at hiv
    rw [if_neg (by simp [hs_nc])] at hiv
    rcases List.mem_cons.mp hiv with rfl | hiv'
    · exact le_refl cursor
    · exact le_trans (le_trans h1 h2)
        (ih s.segEnd h3 (fun x hx => hnc x (List.mem_cons_of_mem _ hx)) iv hiv')

theorem keepsFrom_mem_iff (c : SponsorBlockCategories) (d : ℚ) :
    ∀ (segs : List Seg) (cursor : ℚ), SegChain cursor segs →
      (∀ s ∈ segs, segmentKept c s.category = false) →
      (∀ s ∈ segs, s.segEnd ≤ d) → 0 ≤ cursor →
      ∀ t : ℚ, InKeeps (keepsFrom c cursor segs) d t ↔
        (cursor ≤ t ∧ t < d ∧ ¬ InCuts segs t) := by
  intro segs
  induction segs with
  | nil =>
    intro cursor _ _ _ _ t
    simp [keepsFrom, InKeeps, InCuts, memIv]
  | cons s rest ih =>
    intro cursor hchain hnc hd hc t
    obtain ⟨h1, h2, h3⟩ := hchain
    have hs_nc : segmentKept c s.category = false := hnc s (by simp)
    have hsd : s.segEnd ≤ d := hd s (by simp)
    have hstart_ne : ¬ s.segStart = -1 := by
      intro h
      have h0 : (0:ℚ) ≤ -1 := h ▸ le_trans hc h1
      norm_num at h0
    have hstep : keepsFrom c cursor (s :: rest) =
        (cursor, s.segStart) :: keepsFrom c s.segEnd rest := by
      simp only [keepsFrom]
      rw [if_neg (by simp [hs_nc])]
    rw [hstep]
    have hih := ih s.segEnd h3 (fun x hx => hnc x (List.mem_cons_of_mem _ hx))
      (fun x hx => hd x (List.mem_cons_of_mem _ hx))
      (le_trans (le_trans hc h1) h2) t
    have hsplit : InKeeps ((cursor, s.segStart) :: keepsFrom c s.segEnd rest) d t ↔
        memIv d t (cursor, s.segStart) ∨ InKeeps (keepsFrom c s.segEnd rest) d t := by
      simp [InKeeps]
    rw [hsplit, hih]
    have hmem1 : memIv d t (cursor, s.segStart) ↔ (cursor ≤ t ∧ t < s.segStart) := by
      unfold memIv
      rw [if_neg hstart_ne]
    rw [hmem1]
    have hcuts : InCuts (s :: rest) t ↔
        ((s.segStart ≤ t ∧ t < s.segEnd) ∨ InCuts rest t) := by
      simp [InCuts]
    rw [hcuts]
    constructor
    · rintro (⟨ha, hb⟩ | ⟨ha, hb, hcut⟩)
      · refine ⟨ha, lt_of_lt_of_le hb (le_trans h2 hsd), ?_⟩
        rintro (⟨hsa, _⟩ | ⟨s', hs', hsa', _⟩)
        · linarith
        · have := segChain_le_start h3 s' hs'
          linarith
      · refine ⟨by linarith, hb, ?_⟩
        rintro (⟨_, hlt⟩ | hcuts')
        · linarith
        · exact hcut hcuts'
    · rintro ⟨ha, hb, hn⟩
      rcases lt_or_le t s.segStart with hlt | hge
      · exact Or.inl ⟨ha, hlt⟩
      · have hend : s.segEnd ≤ t :=
          le_of_not_lt (fun hlt2 => hn (Or.inl ⟨hge, hlt2⟩))
        exact Or.inr ⟨hend, hb, fun hcuts' => hn (Or.inr hcuts')⟩

theorem keepsFrom_pairwise_disjoint (c : SponsorBlockCategories) (d : ℚ) :
    ∀ (segs : List Seg) (cursor : ℚ), SegChain cursor segs →
      (∀ s ∈ segs, segmentKept c s.category = false) → 0 ≤ cursor →
      List.Pairwise (fun iv1 iv2 => ∀ t, memIv d t iv1 → ¬ memIv d t iv2)
        (keepsFrom c cursor segs) := by
  intro segs
  induction segs with
  | nil =>
    intro cursor _ _ _
    simp [keepsFrom]
  | cons s rest ih =>
    intro cursor hchain hnc hc
    obtain ⟨h1, h2, h3⟩ := hchain
    have hs_nc : segmentKept c s.category = false := hnc s (by simp)
    have hstart_ne : ¬ s.segStart = -1 := by
      intro h
      have h0 : (0:ℚ) ≤ -1 := h ▸ le_trans hc h1
      norm_num at h0
    have hstep : keepsFrom c cursor (s :: rest) =
        (cursor, s.segStart) :: keepsFrom c s.segEnd rest := by
      simp only [keepsFrom]
      rw [if_neg (by simp [hs_nc])]
    rw [hstep]
    refine List.Pairwise.cons ?_
      (ih s.segEnd h3 (fun x hx => hnc x (List.mem_cons_of_mem _ hx))
        (le_trans (le_trans hc h1) h2))
    intro iv' hiv' t ht ht'
    have hlt : t < s.segStart := by
      have := ht.2
      rwa [if_neg hstart_ne] at this
    have hge : s.segEnd ≤ iv'.1 :=
      keepsFrom_start_ge c rest s.segEnd h3
        (fun x hx => hnc x (List.mem_cons_of_mem _ hx)) iv' hiv'
    have : iv'.1 ≤ t := ht'.1
    linarith

/-- C5: the planner ignores segments whose category policy keeps them, and
on a disjoint, ascending list of cut segments over a media of duration `d`
its keep intervals are pairwise disjoint and cover exactly the complement
of the cut segments within `[0, d)`. -/
theorem segmentPlanner_partition (c : SponsorBlockCategories)
    (segs : List Seg) (d : ℚ)
    (hchain : SegChain 0 (segs.filter (fun s => ¬ segmentKept c s.category)))
    (hd : ∀ s ∈ segs.filter (fun s => ¬ segmentKept c s.category), s.segEnd ≤ d) :
    computeKeeps c segs =
      computeKeeps c (segs.filter (fun s => ¬ segmentKept c s.category)) ∧
    (∀ t : ℚ, InKeeps (computeKeeps c segs) d t ↔
      (0 ≤ t ∧ t < d ∧
        ¬ InCuts (segs.filter (fun s => ¬ segmentKept c s.category)) t)) ∧
    List.Pairwise (fun iv1 iv2 => ∀ t, memIv d t iv1 → ¬ memIv d t iv2)
      (computeKeeps c segs) := by
  have hnc : ∀ s ∈ segs.filter (fun s => ¬ segmentKept c s.category),
      segmentKept c s.category = false := by
    intro s hs
    have := (List.mem_filter.mp hs).2
    simpa using of_decide_eq_true this
  have hfilter : computeKeeps c segs =
      computeKeeps c (segs.filter (fun s => ¬ segmentKept c s.category)) :=
    keepsFrom_filter c segs 0
  refine ⟨hfilter, ?_, ?_⟩
  · intro t
    rw [hfilter]
    exact keepsFrom_mem_iff c d
      (segs.filter (fun s => ¬ segmentKept c s.category)) 0 hchain hnc hd
      (le_refl 0) t
  · rw [hfilter]
    exact keepsFrom_pairwise_disjoint c d
      (segs.filter (fun s => ¬ segmentKept c s.category)) 0 hchain hnc
      (le_refl 0)

/-- Witness for C5 at a concrete input: two cut segments and one kept
segment over a media of duration 60. -/
theorem segmentPlanner_partition_witness :
    computeKeeps demoCats demoSegs =
      computeKeeps demoCats
        (demoSegs.filter (fun s => ¬ segmentKept demoCats s.category)) ∧
    (∀ t : ℚ, InKeeps (computeKeeps demoCats demoSegs) 60 t ↔
      (0 ≤ t ∧ t < 60 ∧
        ¬ InCuts (demoSegs.filter
          (fun s => ¬ segmentKept demoCats s.category)) t)) ∧
    List.Pairwise (fun iv1 iv2 => ∀ t, memIv 60 t iv1 → ¬ memIv 60 t iv2)
      (computeKeeps demoCats demoSegs) :=
  segmentPlanner_partition demoCats demoSegs 60 (by decide) (by decide)

/-! ### Filter-graph builder (claim C6) -/

theorem trimBody_eq_spec (fmtF : ℚ → String) (iv : KeepInterval)
    (h : iv.2 = -1 ∨ 0 ≤ iv.2) :
    (if iv.2 ≥ 0 then ":end=" ++ fmtF iv.2 else "") =
      (if iv.2 = -1 then "" else ":end=" ++ fmtF iv.2) := by
  rcases h with h | h
  · rw [if_neg (by rw [h]; norm_num), if_pos h]
  · have hne : ¬ iv.2 = -1 := by
      intro he
      rw [he] at h
      norm_num at h
    rw [if_pos h, if_neg hne]

theorem audioTrimStage_eq_spec (fmtF : ℚ → String) (idx : Nat)
    (iv : KeepInterval) (h : iv.2 = -1 ∨ 0 ≤ iv.2) :
    audioTrimStage fmtF idx iv = specAudioStage fmtF idx iv := by
  unfold audioTrimStage specAudioStage specTrimBody
  rw [← trimBody_eq_spec fmtF iv h]
  simp [String.append_assoc]

theorem videoTrimStage_eq_spec (fmtF : ℚ → String) (idx : Nat)
    (iv : KeepInterval) (h : iv.2 = -1 ∨ 0 ≤ iv.2) :
    videoTrimStage fmtF idx iv = specVideoStage fmtF idx iv := by
  unfold videoTrimStage specVideoStage specTrimBody
  rw [← trimBody_eq_spec fmtF iv h]
  simp [String.append_assoc]

theorem buildStages_eq_spec (fmtF : ℚ → String) (cfg : FeedConfig) :
    ∀ (keeps : List KeepInterval), (∀ iv ∈ keeps, iv.2 = -1 ∨ 0 ≤ iv.2) →
      ∀ idx : Nat,
      buildStages fmtF cfg idx keeps =
        (strJoin ((keeps.enumFrom idx).map
            (fun p => specStagesAt fmtF cfg p.1 p.2)),
         strJoin ((keeps.enumFrom idx).map (fun p => segmentLabels cfg p.1))) := by
  intro keeps
  induction keeps with
  | nil =>
    intro _ idx
    rfl
  | cons iv rest ih =>
    intro h idx
    have hiv := h iv (by simp)
    have hrest : ∀ iv' ∈ rest, iv'.2 = -1 ∨ 0 ≤ iv'.2 :=
      fun iv' hx => h iv' (List.mem_cons_of_mem _ hx)
    simp only [buildStages]
    rw [ih hrest (idx + 1)]
    simp only [List.enumFrom, List.map_cons, strJoin, specStagesAt]
    rw [audioTrimStage_eq_spec fmtF idx iv hiv,
      videoTrimStage_eq_spec fmtF idx iv hiv]

/-- C6: for a non-empty list of `k` keep intervals, the rendered filter
graph is exactly the concatenation of `k` audio-trim stages labeled
`s{i}a` (each with a video-trim stage labeled `s{i}v` when the feed is not
audio-only), each trimming `[start, end)` with the end bound omitted when
`end = -1` and the timestamp base reset, followed by all `k` segment
labels in interval order and one concat stage with final labels `[outa]`
(plus `[outv]` for video); the output extension is `mp3` for audio-only
feeds and `mp4` otherwise. -/
theorem filterGraph_structure (fmtF : ℚ → String) (cfg : FeedConfig)
    (keeps : List KeepInterval) (_hk : keeps ≠ [])
    (hends : ∀ iv ∈ keeps, iv.2 = -1 ∨ 0 ≤ iv.2) :
    ffmpegFilter fmtF cfg keeps =
      strJoin ((keeps.enum).map (fun p => specStagesAt fmtF cfg p.1 p.2)) ++
      strJoin ((keeps.enum).map (fun p => segmentLabels cfg p.1)) ++
      ("concat=n=" ++ toString keeps.length ++ ":v=" ++
        toString (videoStreams cfg) ++ ":a=1" ++
        (if cfg.format ≠ formatAudio then "[outv]" else "") ++ "[outa]") ∧
    ((keeps.enum).map (fun p => specStagesAt fmtF cfg p.1 p.2)).length =
      keeps.length ∧
    ((keeps.enum).map (fun p => segmentLabels cfg p.1)).length = keeps.length ∧
    outputExt cfg = (if cfg.format = formatAudio then "mp3" else "mp4") := by
  refine ⟨?_, by simp, by simp, rfl⟩
  unfold ffmpegFilter
  rw [show (List.enum keeps) = List.enumFrom 0 keeps from rfl]
  rw [buildStages_eq_spec fmtF cfg keeps hends 0]
  simp [String.append_assoc]

/-- Witness for C6 at a concrete input: two keep intervals (the second
running to the end of the media) on an audio-only feed, with a fixed
formatter. -/
theorem filterGraph_structure_witness :
    ffmpegFilter (fun _ => "X") (sampleCfg 3 "off" 0) [(0, 10), (20, -1)] =
      strJoin ((([(0, 10), (20, -1)] : List KeepInterval).enum).map
        (fun p => specStagesAt (fun _ => "X") (sampleCfg 3 "off" 0) p.1 p.2)) ++
      strJoin ((([(0, 10), (20, -1)] : List KeepInterval).enum).map
        (fun p => segmentLabels (sampleCfg 3 "off" 0) p.1)) ++
      ("concat=n=" ++ toString ([(0, 10), (20, -1)] : List KeepInterval).length ++
        ":v=" ++ toString (videoStreams (sampleCfg 3 "off" 0)) ++ ":a=1" ++
        (if (sampleCfg 3 "off" 0).format ≠ formatAudio then "[outv]" else "") ++
        "[outa]") ∧
    ((([(0, 10), (20, -1)] : List KeepInterval).enum).map
      (fun p => specStagesAt (fun _ => "X") (sampleCfg 3 "off" 0) p.1 p.2)).length =
        ([(0, 10), (20, -1)] : List KeepInterval).length ∧
    ((([(0, 10), (20, -1)] : List KeepInterval).enum).map
      (fun p => segmentLabels (sampleCfg 3 "off" 0) p.1)).length =
        ([(0, 10), (20, -1)] : List KeepInterval).length ∧
    outputExt (sampleCfg 3 "off" 0) =
      (if (sampleCfg 3 "off" 0).format = formatAudio then "mp3" else "mp4") :=
  filterGraph_structure (fun _ => "X") (sampleCfg 3 "off" 0) [(0, 10), (20, -1)]
    (by decide) (by decide)

/-! ### Retention cleaner (claim C7) -/

theorem insertByPubDateDesc_perm (e : Episode) :
    ∀ l : List Episode, (insertByPubDateDesc e l).Perm (e :: l) := by
  intro l
  induction l with
  | nil => exact List.Perm.refl _
  | cons x xs ih =>
    by_cases h : x.pubDate > e.pubDate
    · have h1 : insertByPubDateDesc e (x :: xs) = x :: insertByPubDateDesc e xs := by
        simp only [insertByPubDateDesc, if_pos h]
      rw [h1]
      exact List.Perm.trans (ih.cons x) (List.Perm.swap e x xs)
    · simp only [insertByPubDateDesc, if_neg h]
      exact List.Perm.refl _

theorem sortByPubDateDesc_perm :
    ∀ l : List Episode, (sortByPubDateDesc l).Perm l := by
  intro l
  induction l with
  | nil => exact List.Perm.refl _
  | cons x xs ih =>
    show (insertByPubDateDesc x (sortByPubDateDesc xs)).Perm (x :: xs)
    exact List.Perm.trans (insertByPubDateDesc_perm x _) (ih.cons x)

theorem mem_insertByPubDateDesc {e y : Episode} {l : List Episode} :
    y ∈ insertByPubDateDesc e l ↔ y = e ∨ y ∈ l := by
  rw [(insertByPubDateDesc_perm e l).mem_iff, List.mem_cons]

theorem insertByPubDateDesc_sorted (e : Episode) :
    ∀ l : List Episode,
      l.Pairwise (fun a b => b.pubDate ≤ a.pubDate) →
      (insertByPubDateDesc e l).Pairwise (fun a b => b.pubDate ≤ a.pubDate) := by
  intro l
  induction l with
  | nil =>
    intro _
    exact List.pairwise_singleton _ e
  | cons x xs ih =>
    intro hs
    rcases List.pairwise_cons.mp hs with ⟨hx, hxs⟩
    by_cases h : x.pubDate > e.pubDate
    · simp only [insertByPubDateDesc, if_pos h]
      refine List.pairwise_cons.mpr ⟨?_, ih hxs⟩
      intro y hy
      rcases mem_insertByPubDateDesc.mp hy with rfl | hy'
      · exact le_of_lt h
      · exact hx y hy'
    · simp only [insertByPubDateDesc, if_neg h]
      refine List.pairwise_cons.mpr ⟨?_, hs⟩
      intro y hy
      rcases List.mem_cons.mp hy with rfl | hy'
      · exact le_of_not_lt h
      · exact le_trans (hx y hy') (le_of_not_lt h)

theorem sortByPubDateDesc_sorted :
    ∀ l : List Episode,
      (sortByPubDateDesc l).Pairwise (fun a b => b.pubDate ≤ a.pubDate) := by
  intro l
  induction l with
  | nil => exact List.Pairwise.nil
  | cons x xs ih => exact insertByPubDateDesc_sorted x (sortByPubDateDesc xs) ih

/-- In a list sorted by publish date descending with pairwise-distinct
dates, an element lies beyond the first `n` positions exactly when at
least `n` elements have a strictly later publish date. -/
theorem mem_drop_iff_newer :
    ∀ (s : List Episode) (n : Nat),
      s.Pairwise (fun a b => b.pubDate ≤ a.pubDate) →
      s.Pairwise (fun a b => a.pubDate ≠ b.pubDate) →
      ∀ e ∈ s, (e ∈ s.drop n ↔
        n ≤ (s.filter (fun x => e.pubDate < x.pubDate)).length) := by
  intro s
  induction s with
  | nil =>
    intro n _ _ e he
    exact absurd he (List.not_mem_nil e)
  | cons a t ih =>
    intro n hs hd e he
    rcases List.pairwise_cons.mp hs with ⟨ha, hst⟩
    rcases List.pairwise_cons.mp hd with ⟨hane, hdt⟩
    cases n with
    | zero =>
      simp only [List.drop_zero, Nat.zero_le, iff_true]
      exact he
    | succ n =>
      rw [List.drop_succ_cons]
      rcases List.mem_cons.mp he with rfl | het
      · have hnot : e ∉ t.drop n := by
          intro hmem
          exact (hane e (List.drop_subset n t hmem)) rfl
        have hfilter : ((e :: t).filter
            (fun x => e.pubDate < x.pubDate)).length = 0 := by
          rw [List.length_eq_zero, List.filter_eq_nil_iff]
          intro x hx
          rcases List.mem_cons.mp hx with rfl | hxt
          · simp
          · simp only [decide_eq_true_eq]
            exact not_lt.mpr (ha x hxt)
        rw [hfilter]
        simp [hnot]
      · have hlt : e.pubDate < a.pubDate :=
          lt_of_le_of_ne (ha e het) (fun hc => (hane e het) hc.symm)
        have hfilter : ((a :: t).filter
            (fun x => e.pubDate < x.pubDate)).length =
            (t.filter (fun x => e.pubDate < x.pubDate)).length + 1 := by
          rw [List.filter_cons, if_pos (by simpa using hlt)]
          simp
        rw [hfilter, ih n hst hdt e het]
        omega

theorem foldl_cleanupStep (env : Env) :
    ∀ (es : List Episode) (st : Store) (errs : List String),
      es.foldl (cleanupStep env) (st, errs) =
        (st.map (fun x =>
          if es.any (fun e => decide (e.id = x.id) && env.deleteOk (env.epName e))
          then cleanFields x else x),
         errs ++ (es.filter (fun e => ¬ env.deleteOk (env.epName e))).map (·.id)) := by
  intro es
  induction es with
  | nil =>
    intro st errs
    simp
  | cons e rest ih =>
    intro st errs
    rw [List.foldl_cons]
    by_cases hok : env.deleteOk (env.epName e) = true
    · have hstep : cleanupStep env (st, errs) e =
          (updateEpisode st e.id cleanFields, errs) := by
        simp [cleanupStep, hok]
      rw [hstep, ih]
      simp only [Prod.mk.injEq]
      refine ⟨?_, ?_⟩
      · unfold updateEpisode
        rw [List.map_map]
        refine List.map_congr_left ?_
        intro x _
        by_cases hid : x.id = e.id
        · have hcond : (decide (e.id = x.id) && env.deleteOk (env.epName e)) = true := by
            simp [hid, hok]
          simp only [Function.comp, if_pos hid, List.any_cons, hcond, Bool.true_or,
            if_true]
          by_cases hr : rest.any (fun e' =>
              decide (e'.id = (cleanFields x).id) && env.deleteOk (env.epName e')) = true
          · simp only [cleanFields] at hr ⊢
            simp [hr]
          · simp only [cleanFields] at hr ⊢
            simp [hr]
        · have hne : e.id ≠ x.id := fun h => hid h.symm
          have hcond : (decide (e.id = x.id) && env.deleteOk (env.epName e)) = false := by
            simp [hne]
          simp [Function.comp, if_neg hid, List.any_cons, hcond]
      · rw [List.filter_cons, if_neg (by simp [hok])]
    · have hstep : cleanupStep env (st, errs) e = (st, errs ++ [e.id]) := by
        simp [cleanupStep, hok]
      rw [hstep, ih]
      simp only [Prod.mk.injEq]
      refine ⟨?_, ?_⟩
      · refine List.map_congr_left ?_
        intro x _
        have hcond : (decide (e.id = x.id) && env.deleteOk (env.epName e)) = false := by
          simp [hok]
        simp [List.any_cons, hcond]
      · rw [List.filter_cons, if_pos (by simp [hok]), List.map_cons,
          List.append_assoc]
        rfl

/-- C7: the retention cleaner is a no-op when the keep-last count is below
1 or when at most that many episodes are `Downloaded`; otherwise exactly
the `Downloaded` episodes with at least keep-last strictly-newer
`Downloaded` episodes (i.e. those beyond the keep-last newest by publish
timestamp) whose blob deletion succeeds become `Cleaned` with empty title
and description, every other episode is unchanged, and the IDs of the
excess episodes whose deletion fails are aggregated into the combined
error without stopping the remaining work. -/
theorem retentionCleaner_spec (env : Env) (cfg : FeedConfig) (store : Store)
    (hN : (store.map (·.id)).Nodup)
    (hdates : (store.filter
      (fun e => e.status = EpisodeStatus.downloaded)).Pairwise
        (fun a b => a.pubDate ≠ b.pubDate)) :
    (cfg.clean.keepLast < 1 → cleanup env cfg store = (store, [])) ∧
    (((store.filter (fun e => e.status = EpisodeStatus.downloaded)).length : Int) ≤
        cfg.clean.keepLast →
      cleanup env cfg store = (store, [])) ∧
    (1 ≤ cfg.clean.keepLast →
      (cleanup env cfg store).1 = store.map (fun x =>
        if x.status = EpisodeStatus.downloaded ∧
            cfg.clean.keepLast ≤ (((store.filter
              (fun e => e.status = EpisodeStatus.downloaded)).filter
                (fun y => x.pubDate < y.pubDate)).length : Int) ∧
            env.deleteOk (env.epName x) = true
          then cleanFields x else x) ∧
      (∀ i : String, i ∈ (cleanup env cfg store).2 ↔
        ∃ x ∈ store, x.id = i ∧ x.status = EpisodeStatus.downloaded ∧
          cfg.clean.keepLast ≤ (((store.filter
            (fun e => e.status = EpisodeStatus.downloaded)).filter
              (fun y => x.pubDate < y.pubDate)).length : Int) ∧
          ¬ env.deleteOk (env.epName x) = true)) := by
  set dl := store.filter (fun e => e.status = EpisodeStatus.downloaded) with hdl
  have hdlsub : ∀ x, x ∈ dl → x ∈ store ∧ x.status = EpisodeStatus.downloaded := by
    intro x hx
    rw [hdl, List.mem_filter] at hx
    exact ⟨hx.1, of_decide_eq_true hx.2⟩
  have hdlmem : ∀ x, x ∈ store → x.status = EpisodeStatus.downloaded → x ∈ dl := by
    intro x hx hst
    rw [hdl, List.mem_filter]
    exact ⟨hx, decide_eq_true hst⟩
  refine ⟨?_, ?_, ?_⟩
  · intro h
    unfold cleanup
    rw [if_pos h]
  · intro h
    unfold cleanup
    by_cases h1 : cfg.clean.keepLast < 1
    · rw [if_pos h1]
    · rw [if_neg h1]
      show (if cfg.clean.keepLast > (dl.length : Int) then (store, [])
        else ((sortByPubDateDesc dl).drop cfg.clean.keepLast.toNat).foldl
          (cleanupStep env) (store, [])) = (store, [])
      by_cases h2 : cfg.clean.keepLast > (dl.length : Int)
      · rw [if_pos h2]
      · rw [if_neg h2]
        have hlen : (sortByPubDateDesc dl).length = dl.length :=
          (sortByPubDateDesc_perm dl).length_eq
        have hdrop : (sortByPubDateDesc dl).drop cfg.clean.keepLast.toNat = [] := by
          rw [List.drop_eq_nil_iff]
          omega
        rw [hdrop]
        rfl
  · intro hN1
    by_cases hlen : cfg.clean.keepLast > (dl.length : Int)
    · have hclean : cleanup env cfg store = (store, []) := by
        unfold cleanup
        rw [if_neg (by omega), if_pos hlen]
      have hcondfalse : ∀ x ∈ store,
          ¬ (x.status = EpisodeStatus.downloaded ∧
            cfg.clean.keepLast ≤ ((dl.filter
              (fun y => x.pubDate < y.pubDate)).length : Int) ∧
            env.deleteOk (env.epName x) = true) := by
        rintro x _ ⟨_, hcnt, _⟩
        have hle : (dl.filter (fun y => x.pubDate < y.pubDate)).length ≤ dl.length :=
          List.length_filter_le _ dl
        omega
      rw [hclean]
      refine ⟨?_, ?_⟩
      · refine Eq.symm ?_
        have : ∀ x ∈ store, (if x.status = EpisodeStatus.downloaded ∧
            cfg.clean.keepLast ≤ ((dl.filter
              (fun y => x.pubDate < y.pubDate)).length : Int) ∧
            env.deleteOk (env.epName x) = true
          then cleanFields x else x) = x := by
          intro x hx
          rw [if_neg (hcondfalse x hx)]
        exact (List.map_congr_left this).trans (List.map_id store)
      · intro i
        simp only [List.not_mem_nil, false_iff]
        rintro ⟨x, _, _, _, hcnt, _⟩
        have hle : (dl.filter (fun y => x.pubDate < y.pubDate)).length ≤ dl.length :=
          List.length_filter_le _ dl
        omega
    · have hcleanup : cleanup env cfg store =
          ((sortByPubDateDesc dl).drop cfg.clean.keepLast.toNat).foldl
            (cleanupStep env) (store, []) := by
        unfold cleanup
        rw [if_neg (show ¬ cfg.clean.keepLast < 1 by omega)]
        show (if cfg.clean.keepLast > (dl.length : Int) then (store, [])
          else ((sortByPubDateDesc dl).drop cfg.clean.keepLast.toNat).foldl
            (cleanupStep env) (store, [])) = _
        rw [if_neg hlen]
      have hsorted := sortByPubDateDesc_sorted dl
      have hperm := sortByPubDateDesc_perm dl
      have hdates' : (sortByPubDateDesc dl).Pairwise
          (fun a b => a.pubDate ≠ b.pubDate) :=
        (hperm.pairwise_iff (fun h hc => h hc.symm)).mpr hdates
      have hflen : ∀ x : Episode,
          ((sortByPubDateDesc dl).filter
            (fun y => x.pubDate < y.pubDate)).length =
          (dl.filter (fun y => x.pubDate < y.pubDate)).length :=
        fun x => (hperm.filter _).length_eq
      -- the excess set, characterised against the original store
      have hxiff : ∀ x ∈ store,
          (((sortByPubDateDesc dl).drop cfg.clean.keepLast.toNat).any
            (fun e => decide (e.id = x.id) && env.deleteOk (env.epName e)) = true) ↔
          (x.status = EpisodeStatus.downloaded ∧
            cfg.clean.keepLast ≤ ((dl.filter
              (fun y => x.pubDate < y.pubDate)).length : Int) ∧
            env.deleteOk (env.epName x) = true) := by
        intro x hx
        constructor
        · intro hany
          rcases List.any_eq_true.mp hany with ⟨e, he, hcond⟩
          have hcond2 : decide (e.id = x.id) = true ∧
              env.deleteOk (env.epName e) = true := by
            simpa using hcond
          rcases hcond2 with ⟨hid, hok⟩
          have hid' : e.id = x.id := of_decide_eq_true hid
          have hesorted : e ∈ sortByPubDateDesc dl :=
            List.drop_subset _ _ he
          have hedl : e ∈ dl := hperm.mem_iff.mp hesorted
          have hestore : e ∈ store := (hdlsub e hedl).1
          have hex : e = x := List.inj_on_of_nodup_map hN hestore hx hid'
          subst hex
          refine ⟨(hdlsub e hedl).2, ?_, hok⟩
          have hdropiff := mem_drop_iff_newer (sortByPubDateDesc dl)
            cfg.clean.keepLast.toNat hsorted hdates' e hesorted
          have hcnt := hdropiff.mp he
          rw [hflen e] at hcnt
          omega
        · rintro ⟨hst, hcnt, hok⟩
          have hxdl : x ∈ dl := hdlmem x hx hst
          have hxsorted : x ∈ sortByPubDateDesc dl := hperm.mem_iff.mpr hxdl
          have hdropiff := mem_drop_iff_newer (sortByPubDateDesc dl)
            cfg.clean.keepLast.toNat hsorted hdates' x hxsorted
          have hxdrop : x ∈ (sortByPubDateDesc dl).drop cfg.clean.keepLast.toNat := by
            rw [hdropiff, hflen x]
            omega
          exact List.any_eq_true.mpr ⟨x, hxdrop, by simp [hok]⟩
      rw [hcleanup, foldl_cleanupStep env _ store []]
      refine ⟨?_, ?_⟩
      · refine List.map_congr_left ?_
        intro x hx
        by_cases hsc : x.status = EpisodeStatus.downloaded ∧
            cfg.clean.keepLast ≤ ((dl.filter
              (fun y => x.pubDate < y.pubDate)).length : Int) ∧
            env.deleteOk (env.epName x) = true
        · rw [if_pos ((hxiff x hx).mpr hsc), if_pos hsc]
        · rw [if_neg (fun h => hsc ((hxiff x hx).mp h)), if_neg hsc]
      · intro i
        simp only [List.nil_append, List.mem_map]
        constructor
        · rintro ⟨e, hef, hei⟩
          rw [List.mem_filter] at hef
          have he := hef.1
          have hnok : ¬ env.deleteOk (env.epName e) = true := by
            have := hef.2
            simpa using of_decide_eq_true this
          have hesorted : e ∈ sortByPubDateDesc dl :=
            List.drop_subset _ _ he
          have hedl : e ∈ dl := hperm.mem_iff.mp hesorted
          have hestore : e ∈ store := (hdlsub e hedl).1
          have hdropiff := mem_drop_iff_newer (sortByPubDateDesc dl)
            cfg.clean.keepLast.toNat hsorted hdates' e hesorted
          have hcnt := hdropiff.mp he
          rw [hflen e] at hcnt
          refine ⟨e, hestore, hei, (hdlsub e hedl).2, by omega, hnok⟩
        · rintro ⟨x, hx, hxi, hst, hcnt, hnok⟩
          have hxdl : x ∈ dl := hdlmem x hx hst
          have hxsorted : x ∈ sortByPubDateDesc dl := hperm.mem_iff.mpr hxdl
          have hdropiff := mem_drop_iff_newer (sortByPubDateDesc dl)
            cfg.clean.keepLast.toNat hsorted hdates' x hxsorted
          have hxdrop : x ∈ (sortByPubDateDesc dl).drop cfg.clean.keepLast.toNat := by
            rw [hdropiff, hflen x]
            omega
          refine ⟨x, ?_, hxi⟩
          rw [List.mem_filter]
          exact ⟨hxdrop, by simpa using hnok⟩

/-- Witness for C7 at a concrete input: keep-last 1 over a store with
three `Downloaded` episodes and one `New` episode, all deletions
succeeding. -/
theorem retentionCleaner_spec_witness :
    ((sampleCfg 3 "off" 1).clean.keepLast < 1 →
      cleanup envAllOk (sampleCfg 3 "off" 1) storeMixed = (storeMixed, [])) ∧
    (((storeMixed.filter
        (fun e => e.status = EpisodeStatus.downloaded)).length : Int) ≤
        (sampleCfg 3 "off" 1).clean.keepLast →
      cleanup envAllOk (sampleCfg 3 "off" 1) storeMixed = (storeMixed, [])) ∧
    (1 ≤ (sampleCfg 3 "off" 1).clean.keepLast →
      (cleanup envAllOk (sampleCfg 3 "off" 1) storeMixed).1 = storeMixed.map (fun x =>
        if x.status = EpisodeStatus.downloaded ∧
            (sampleCfg 3 "off" 1).clean.keepLast ≤ (((storeMixed.filter
              (fun e => e.status = EpisodeStatus.downloaded)).filter
                (fun y => x.pubDate < y.pubDate)).length : Int) ∧
            envAllOk.deleteOk (envAllOk.epName x) = true
          then cleanFields x else x) ∧
      (∀ i : String, i ∈ (cleanup envAllOk (sampleCfg 3 "off" 1) storeMixed).2 ↔
        ∃ x ∈ storeMixed, x.id = i ∧ x.status = EpisodeStatus.downloaded ∧
          (sampleCfg 3 "off" 1).clean.keepLast ≤ (((storeMixed.filter
            (fun e => e.status = EpisodeStatus.downloaded)).filter
              (fun y => x.pubDate < y.pubDate)).length : Int) ∧
          ¬ envAllOk.deleteOk (envAllOk.epName x) = true)) :=
  retentionCleaner_spec envAllOk (sampleCfg 3 "off" 1) storeMixed
    (by decide) (by decide)

end Podsync
